import Mathlib

/-!
Verification development for `config.go` (package `config`).

A shallow embedding of the option schema, the Go `map[string]string` values that
travel between the stages, the merge resolver (`merge`, `mergeItems`) and the
line-oriented file reader (`readConfigFile`).

Go strings are modelled as lists of Unicode characters (`Str`), that is, the
development covers well-formed UTF-8 text.  A Go `map[string]string` is modelled
as an association list without repeated keys: reading a key that is absent
yields the empty string (Go's zero value), writing replaces the entry of an
existing key and otherwise adds one.
-/

namespace GoConfig

/-- Go `string`, as the list of its characters. -/
abbrev Str := List Char

/-! ## `map[string]string` -/

/-- Go `map[string]string`: one pair per entry. -/
abbrev GoMap := List (Str × Str)

/-- The result of `make(map[string]string)`. -/
def GoMap.empty : GoMap := []

/-- The index expression `m[k]`: the stored value, or `""` when `k` has no entry. -/
def GoMap.get : GoMap → Str → Str
  | [], _ => []
  | (k', v) :: rest, k => if k' = k then v else GoMap.get rest k

/-- The comma-ok test `_, ok := m[k]`: is there an entry for `k`? -/
def GoMap.has : GoMap → Str → Bool
  | [], _ => false
  | (k', _) :: rest, k => if k' = k then true else GoMap.has rest k

/-- The assignment `m[k] = v`: overwrite the entry of `k`, or add one. -/
def GoMap.set : GoMap → Str → Str → GoMap
  | [], k, v => [(k, v)]
  | (k', v') :: rest, k, v =>
    if k' = k then (k, v) :: rest else (k', v') :: GoMap.set rest k v

/-- The keys of a map, one per entry. -/
def GoMap.keys (m : GoMap) : List Str := m.map Prod.fst

/-- The builtin `len(m)`. -/
def GoMap.len (m : GoMap) : Nat := m.length

/-! ## Option schema -/

/-- The struct `ConfigItem`. -/
structure ConfigItem where
  Name : Str
  Arg : Str
  Hasval : Bool
  Descr : Str
  Dflt : Str
  deriving DecidableEq, Repr

/-- The struct `Config`: the ordered list of items. -/
structure Config where
  Items : List ConfigItem
  deriving DecidableEq, Repr

/-! ## Merge resolver -/

/-- The function `merge`: the command-line value when it is non-empty, else the
file value when that is non-empty, else the default. -/
def merge (arg conf dflt : Str) : Str :=
  if arg.length = 0 then
    if conf.length ≠ 0 then conf else dflt
  else arg

/-- The loop of `mergeItems`, started from the map built so far. -/
def mergeLoop (args conf : GoMap) : List ConfigItem → GoMap → GoMap
  | [], mergedmap => mergedmap
  | ci :: rest, mergedmap =>
    mergeLoop args conf rest
      (mergedmap.set ci.Name (merge (args.get ci.Name) (conf.get ci.Name) ci.Dflt))

/-- The method `Config.mergeItems`. -/
def Config.mergeItems (cfg : Config) (args conf : GoMap) : GoMap :=
  mergeLoop args conf cfg.Items GoMap.empty

/-! ## Library functions used by the file reader

The functions of the standard packages `strings`, `unicode` and `bufio` that
`readConfigFile` calls, on well-formed UTF-8 text. -/

/-- The function `unicode.IsSpace`: the Latin-1 space characters, and outside
Latin-1 the characters of the Unicode property White_Space. -/
def isSpace (c : Char) : Bool :=
  let r := c.toNat
  if r ≤ 0xFF then
    r == 0x09 || r == 0x0A || r == 0x0B || r == 0x0C || r == 0x0D || r == 0x20
      || r == 0x85 || r == 0xA0
  else
    r == 0x1680 || (0x2000 ≤ r && r ≤ 0x200A) || r == 0x2028 || r == 0x2029
      || r == 0x202F || r == 0x205F || r == 0x3000

/-- The function `strings.TrimSpace`: all leading and trailing white space removed. -/
def TrimSpace (s : Str) : Str :=
  ((s.dropWhile isSpace).reverse.dropWhile isSpace).reverse

/-- The function `unicode.ToLower` on one character.  ASCII is handled by the
function itself; for any other character the result is read from the Unicode case
tables, which are passed in as `tbl`. -/
def lowerRune (tbl : Char → Char) (c : Char) : Char :=
  if c.toNat < 0x80 then
    (if 'A'.toNat ≤ c.toNat ∧ c.toNat ≤ 'Z'.toNat then Char.ofNat (c.toNat + 32) else c)
  else tbl c

/-- The function `strings.ToLower`: every character mapped to its lower case. -/
def ToLower (tbl : Char → Char) (s : Str) : Str := s.map (lowerRune tbl)

/-- The function `strings.HasPrefix`. -/
def HasPrefix (s pre : Str) : Bool := pre.isPrefixOf s

/-- The text before and the text after the first occurrence of `sep`, when there is one. -/
def cutFirst (sep : Char) : Str → Option (Str × Str)
  | [] => none
  | c :: rest =>
    if c = sep then some ([], rest)
    else
      match cutFirst sep rest with
      | none => none
      | some (a, b) => some (c :: a, b)

/-- The call `strings.SplitN(s, sep, 2)` for a one-character separator: the two
parts around the first separator, or `s` alone when it has none. -/
def SplitN2 (s : Str) (sep : Char) : List Str :=
  match cutFirst sep s with
  | none => [s]
  | some (a, b) => [a, b]

/-- The scan of `strings.Replace`: `n` replacements are still allowed (a negative
`n` means no limit), `skip` characters of a match just replaced are still to be
passed over. -/
def replaceGo (old new : Str) : Int → Nat → Str → Str
  | n, _, [] => if old = [] ∧ n ≠ 0 then new else []
  | n, skip + 1, _ :: rest => replaceGo old new n skip rest
  | n, 0, c :: rest =>
    if n ≠ 0 ∧ old.isPrefixOf (c :: rest) then
      (if old = [] then new ++ c :: replaceGo old new (n - 1) 0 rest
       else new ++ replaceGo old new (n - 1) (old.length - 1) rest)
    else c :: replaceGo old new n 0 rest

/-- The function `strings.Replace`: the first `n` non-overlapping occurrences of
`old` replaced by `new`, all of them when `n < 0`. -/
def Replace (s old new : Str) (n : Int) : Str := replaceGo old new n 0 s

/-- The length of a string in bytes (Go's `len`), in the UTF-8 encoding. -/
def byteLen (s : Str) : Nat := (s.map Char.utf8Size).sum

/-- The constant `bufio.MaxScanTokenSize`. -/
def MaxScanTokenSize : Nat := 64 * 1024

/-- The tokens `bufio.ScanLines` cuts a text into, before the carriage return is
dropped: the pieces between line feeds, a last piece without line feed included
when it is not empty. -/
def rawLines : Str → List Str
  | [] => []
  | c :: rest =>
    if c = '\n' then [] :: rawLines rest
    else
      match rawLines rest with
      | [] => [[c]]
      | l :: ls => (c :: l) :: ls

/-- The helper `dropCR` of `bufio.ScanLines`: one trailing carriage return removed. -/
def dropCR (data : Str) : Str :=
  if data.getLast? = some '\r' then data.dropLast else data

/-! ## File reader -/

/-- An opened file: the text it delivers, and whether a read fails after that
text (as for a directory, or a failing device). -/
structure File where
  data : Str
  readErr : Bool
  deriving DecidableEq, Repr

/-- What `os.Open` finds at each path; `none` when the open fails. -/
abbrev FileSystem := Str → Option File

/-- The body of the scan loop of `readConfigFile`, for the line `text`. -/
def lineStep (tbl : Char → Char) (cfg : GoMap) (text : Str) : GoMap :=
  if HasPrefix text ['#'] then cfg
  else
    match SplitN2 text '=' with
    | [s0, s1] => cfg.set (ToLower tbl (TrimSpace s0)) (Replace (TrimSpace s1) ['"'] [] (-1))
    | _ => cfg

/-- The scan loop of `readConfigFile` over the tokens that are left.  The result
is the map when `scanner.Scan()` returns false, and whether `scanner.Err()` is
then non-nil: a token of `MaxScanTokenSize` bytes or more stops the scan with
`bufio.ErrTooLong`, and a failed read is reported once the text is used up. -/
def scanLoop (tbl : Char → Char) (readErr : Bool) : List Str → GoMap → GoMap × Bool
  | [], cfg => (cfg, readErr)
  | raw :: rest, cfg =>
    if MaxScanTokenSize ≤ byteLen raw then (cfg, true)
    else scanLoop tbl readErr rest (lineStep tbl cfg (dropCR raw))

/-- The error message of `readConfigFile`. -/
def openErrorText : Str := "Unable to open configuration file. Using default values".toList

/-- The function `readConfigFile`.  The result is `none` when the process is
ended by `log.Fatal`, and otherwise the returned pair: the map, and the error
(`none` for a nil error). -/
def readConfigFile (tbl : Char → Char) (fs : FileSystem) (filename : Str) :
    Option (GoMap × Option Str) :=
  match fs filename with
  | none => some (GoMap.empty, some openErrorText)
  | some file =>
    match scanLoop tbl file.readErr (rawLines file.data) GoMap.empty with
    | (_, true) => none
    | (cfg, false) => some (cfg, none)

/-- The entry that the loop body of `readConfigFile` stores for the line `text`:
none for a comment line and for a line without `=`, else the key and the value. -/
def lineEntry (tbl : Char → Char) (text : Str) : Option (Str × Str) :=
  if HasPrefix text ['#'] then none
  else
    match cutFirst '=' text with
    | none => none
    | some (s0, s1) =>
      some (ToLower tbl (TrimSpace s0), Replace (TrimSpace s1) ['"'] [] (-1))

/-! ## Registering options and printing the usage table -/

/-- The method `Config.AddOption`: the new item appended to the list. -/
def Config.AddOption (cfg : Config) (name arg : Str) (hasval : Bool) (descr dflt : Str) :
    Config :=
  { Items := cfg.Items ++ [{ Name := name, Arg := arg, Hasval := hasval, Descr := descr,
                             Dflt := dflt }] }

/-- The verb `%-20s` of `fmt`, for any width: the text, then blanks up to the
width counted in characters; a longer text is written whole. -/
def padRight (width : Nat) (s : Str) : Str := s ++ List.replicate (width - s.length) ' '

/-- The text that `PrintUsage` puts in `option` for one item. -/
def optionText (ci : ConfigItem) : Str :=
  if ci.Hasval then "  -".toList ++ ci.Arg ++ " <".toList ++ ci.Name ++ ">".toList
  else "  -".toList ++ ci.Arg

/-- The text written by the `fmt.Printf` call of `PrintUsage` for one item. -/
def usageLine (ci : ConfigItem) : Str :=
  "   ".toList ++ padRight 20 (optionText ci) ++ " : ".toList ++ ci.Descr ++ "\n".toList

/-- The loop of `PrintUsage`: `out` is what has been written to standard output
so far, one element per call of a print function. -/
def usageLoop : List ConfigItem → List Str → List Str
  | [], out => out
  | ci :: rest, out =>
    if ci.Arg.length = 0 then usageLoop rest out
    else usageLoop rest (out ++ [usageLine ci])

/-- The method `Config.PrintUsage`: the texts written to standard output, in order. -/
def Config.PrintUsage (cfg : Config) (title : Str) : List Str :=
  usageLoop cfg.Items [title ++ "\n".toList]

/-! ## The package `flag`

The part of the standard package `flag` that `readArgs` uses: the command-line
flag set, `flag.String`, `flag.Bool` and `flag.Parse`. -/

/-- The variable behind a flag: a string or a boolean. -/
inductive FlagVal where
  | str (s : Str)
  | bool (b : Bool)
  deriving DecidableEq, Repr

/-- The flag set `flag.CommandLine`: the defined flags by name, each with the
current value of its variable. -/
abbrev FlagSet := List (Str × FlagVal)

/-- The flag defined under `name`, when there is one. -/
def FlagSet.find : FlagSet → Str → Option FlagVal
  | [], _ => none
  | (n, v) :: rest, name => if n = name then some v else FlagSet.find rest name

/-- A new value stored in the variable of the flag `name`. -/
def FlagSet.assign : FlagSet → Str → FlagVal → FlagSet
  | [], _, _ => []
  | (n, v) :: rest, name, w =>
    if n = name then (n, w) :: rest else (n, v) :: FlagSet.assign rest name w

/-- The string read through the pointer that `flag.String` returned for `name`. -/
def FlagSet.strVal (f : FlagSet) (name : Str) : Str :=
  match f.find name with
  | some (FlagVal.str s) => s
  | _ => []

/-- The boolean read through the pointer that `flag.Bool` returned for `name`. -/
def FlagSet.boolVal (f : FlagSet) (name : Str) : Bool :=
  match f.find name with
  | some (FlagVal.bool b) => b
  | _ => false

/-- The method `FlagSet.Var`, reached from `flag.String` and `flag.Bool`: the flag
is added with its default value; `none` stands for the panic on a name that
begins with `-`, contains `=`, or is already defined. -/
def FlagSet.define (f : FlagSet) (name : Str) (dflt : FlagVal) : Option FlagSet :=
  if HasPrefix name ['-'] then none
  else if '=' ∈ name then none
  else if (f.find name).isSome then none
  else some (f ++ [(name, dflt)])

/-- The function `strconv.ParseBool`, which reads the value of a boolean flag. -/
def ParseBool (s : Str) : Option Bool :=
  if s ∈ ["1".toList, "t".toList, "T".toList, "TRUE".toList, "true".toList, "True".toList]
  then some true
  else if s ∈ ["0".toList, "f".toList, "F".toList, "FALSE".toList, "false".toList,
    "False".toList]
  then some false
  else none

/-- The loop of `FlagSet.Parse` over the arguments that are left. `pending` is a
string flag that was given without `=` and takes the next argument as its value.
The result is `none` when the flag set, whose error handling is `ExitOnError`,
ends the process: bad flag syntax, a flag that is not defined, a bad boolean
value, or a string flag without argument. -/
def parseLoop : FlagSet → Option Str → List Str → Option FlagSet
  | _, some _, [] => none
  | f, some name, v :: rest => parseLoop (f.assign name (FlagVal.str v)) none rest
  | f, none, [] => some f
  | f, none, s :: rest =>
    match s with
    | '-' :: c :: more =>
      if c = '-' ∧ more = [] then some f
      else
        match (if c = '-' then more else c :: more) with
        | [] => none
        | n0 :: ntail =>
          if n0 = '-' ∨ n0 = '=' then none
          else
            match cutFirst '=' (n0 :: ntail) with
            | some (name, value) =>
              match f.find name with
              | none => none
              | some (FlagVal.bool _) =>
                match ParseBool value with
                | some b => parseLoop (f.assign name (FlagVal.bool b)) none rest
                | none => none
              | some (FlagVal.str _) => parseLoop (f.assign name (FlagVal.str value)) none rest
            | none =>
              match f.find (n0 :: ntail) with
              | none => none
              | some (FlagVal.bool _) =>
                parseLoop (f.assign (n0 :: ntail) (FlagVal.bool true)) none rest
              | some (FlagVal.str _) => parseLoop f (some (n0 :: ntail)) rest
    | _ => some f

/-- The function `flag.Parse` on the arguments `argv` (the command line without
the program name). -/
def flagParse (f : FlagSet) (argv : List Str) : Option FlagSet := parseLoop f none argv

/-! ## Argument reader -/

/-- The first loop of `readArgs`. `args` and `boolargs` map an option name to the
pointer it was given, a pointer being identified by the name of its flag; `none`
stands for a panic of the flag package. -/
def registerLoop : List ConfigItem → GoMap → GoMap → FlagSet → Option (GoMap × GoMap × FlagSet)
  | [], args, boolargs, f => some (args, boolargs, f)
  | ci :: rest, args, boolargs, f =>
    if ci.Hasval then
      match f.define ci.Arg (FlagVal.str []) with
      | none => none
      | some f' => registerLoop rest (args.set ci.Name ci.Arg) boolargs f'
    else
      match f.define ci.Arg (FlagVal.bool false) with
      | none => none
      | some f' => registerLoop rest args (boolargs.set ci.Name ci.Arg) f'

/-- The loop of `readArgs` over `boolargs`. -/
def boolLoop (f : FlagSet) : GoMap → GoMap → GoMap
  | [], combo => combo
  | (k, v) :: rest, combo =>
    boolLoop f rest (combo.set k (if f.boolVal v then "yes".toList else []))

/-- The loop of `readArgs` over `args`. -/
def strLoop (f : FlagSet) : GoMap → GoMap → GoMap
  | [], combo => combo
  | (k, v) :: rest, combo => strLoop f rest (combo.set k (f.strVal v))

/-- The method `Config.readArgs`, for the flag set `cl` found in
`flag.CommandLine` and the command line `argv`; `none` when the flag package
panics or ends the process. -/
def Config.readArgs (cl : FlagSet) (argv : List Str) (cfg : Config) : Option GoMap :=
  match registerLoop cfg.Items GoMap.empty GoMap.empty cl with
  | none => none
  | some (args, boolargs, f) =>
    match flagParse f argv with
    | none => none
    | some parsed => some (strLoop parsed args (boolLoop parsed boolargs GoMap.empty))

/-- The pointers that the first loop of `readArgs` stores in `args` (for `hasval`
true) or in `boolargs` (for `hasval` false), whatever the flag package does. -/
def ptrLoop (hasval : Bool) : List ConfigItem → GoMap → GoMap
  | [], m => m
  | ci :: rest, m =>
    ptrLoop hasval rest (if ci.Hasval = hasval then m.set ci.Name ci.Arg else m)

/-- The common shape of the two last loops of `readArgs`: every key of `ptrs` is
set in `combo` to the value `g` reads through its pointer. -/
def derefLoop (g : Str → Str) : GoMap → GoMap → GoMap
  | [], combo => combo
  | (k, v) :: rest, combo => derefLoop g rest (combo.set k (g v))

/-! ## Entry point -/

/-- The schema as `Read` leaves it: `help` added, and `cfgpath` when a file name
was given. -/
def withAutoOptions (cfg : Config) (cfgname : Str) : Config :=
  if cfgname.length > 0 then
    (cfg.AddOption "help".toList "h".toList false
        "Output usage information to the console".toList "no".toList).AddOption
      "cfgpath".toList "c".toList true "Path to configuration file".toList cfgname
  else
    cfg.AddOption "help".toList "h".toList false
      "Output usage information to the console".toList "no".toList

/-- The path `Read` hands to `readConfigFile`. -/
def effectivePath (argmap : GoMap) (cfgname : Str) : Str :=
  if (argmap.get "cfgpath".toList).length > 0 then argmap.get "cfgpath".toList else cfgname

/-- The method `Config.Read`. The first component is the schema after the call.
The second is what the call returns: the map (`none` for nil) and the error
(`none` for nil); it is `none` when the call does not return, because the flag
package panics or ends the process, or `log.Fatal` ends it. -/
def Config.Read (tbl : Char → Char) (fs : FileSystem) (cl : FlagSet) (argv : List Str)
    (cfg : Config) (cfgname : Str) : Config × Option (Option GoMap × Option Str) :=
  let cfg' := withAutoOptions cfg cfgname
  match cfg'.readArgs cl argv with
  | none => (cfg', none)
  | some argmap =>
    if cfgname.length > 0 then
      match readConfigFile tbl fs (effectivePath argmap cfgname) with
      | none => (cfg', none)
      | some (_, some err) => (cfg', some (none, some err))
      | some (confmap, none) => (cfg', some (some (cfg'.mergeItems argmap confmap), none))
    else (cfg', some (some (cfg'.mergeItems argmap GoMap.empty), none))

/-- The number of characters that `PrintUsage` writes on the line of an item
before ` : ` and the description. -/
def descrColumn (ci : ConfigItem) : Nat :=
  ("   ".toList ++ padRight 20 (optionText ci)).length

/-- The descriptor `help` that `Read` adds. -/
def helpItem : ConfigItem :=
  { Name := "help".toList, Arg := "h".toList, Hasval := false,
    Descr := "Output usage information to the console".toList, Dflt := "no".toList }

/-- The descriptor `cfgpath` that `Read` adds for the file name `cfgname`. -/
def cfgpathItem (cfgname : Str) : ConfigItem :=
  { Name := "cfgpath".toList, Arg := "c".toList, Hasval := true,
    Descr := "Path to configuration file".toList, Dflt := cfgname }

/-- Is the character one of the ASCII capital letters `A` to `Z`? -/
def isUpperASCII (c : Char) : Bool := decide ('A'.toNat ≤ c.toNat ∧ c.toNat ≤ 'Z'.toNat)

/-! ## Example data -/

/-- The option `port` of the scenarios: flag `p`, takes a value, default `8080`. -/
def portItem : ConfigItem :=
  { Name := "port".toList, Arg := "p".toList, Hasval := true,
    Descr := "Port to listen on".toList, Dflt := "8080".toList }

/-- A schema with the single option `port`. -/
def portSchema : Config := { Items := [portItem] }

/-- A second descriptor named `port`, with another flag and default. -/
def portItemAgain : ConfigItem :=
  { Name := "port".toList, Arg := "q".toList, Hasval := true,
    Descr := "Port, declared again".toList, Dflt := "9999".toList }

/-- A schema in which two descriptors carry the name `port`. -/
def twicePortSchema : Config := { Items := [portItem, portItemAgain] }

/-- An option named `foo`, with default `none`. -/
def fooItem : ConfigItem :=
  { Name := "foo".toList, Arg := "f".toList, Hasval := true,
    Descr := "Some setting".toList, Dflt := "none".toList }

/-- An option whose name `#foo` starts with the comment character. -/
def hashItem : ConfigItem :=
  { Name := "#foo".toList, Arg := "x".toList, Hasval := true,
    Descr := "A setting with a hash in its name".toList, Dflt := "0".toList }

/-- An option whose name `a=b` contains the separator. -/
def eqItem : ConfigItem :=
  { Name := "a=b".toList, Arg := "y".toList, Hasval := true,
    Descr := "A setting with an equals sign in its name".toList, Dflt := "0".toList }

/-- An option named `name`, with default `nobody`. -/
def nameItem : ConfigItem :=
  { Name := "name".toList, Arg := "n".toList, Hasval := true,
    Descr := "Name of the user".toList, Dflt := "nobody".toList }

/-- The file system in which every path opens as a file with the text `text`
that is read without error. -/
def oneFile (text : String) : FileSystem := fun _ => some { data := text.toList, readErr := false }

/-- A presence option `verbose` with flag `v` and an empty default. -/
def verboseItem : ConfigItem :=
  { Name := "verbose".toList, Arg := "v".toList, Hasval := false,
    Descr := "Say more".toList, Dflt := [] }

/-- A value option with a long name. -/
def longItem : ConfigItem :=
  { Name := "configuration-directory".toList, Arg := "d".toList, Hasval := true,
    Descr := "Where the files are".toList, Dflt := [] }

/-- An option without flag, which the usage table leaves out. -/
def hiddenItem : ConfigItem :=
  { Name := "secret".toList, Arg := [], Hasval := true,
    Descr := "Not on the command line".toList, Dflt := [] }

/-- The file system in which no path can be opened. -/
def noFiles : FileSystem := fun _ => none

/-- A file system with two files: `app.conf`, which sets `port` and its own
`cfgpath`, and `other.conf`, which sets `port`. -/
def twoFiles : FileSystem := fun path =>
  if path = "app.conf".toList then
    some { data := "port = 1111\ncfgpath = elsewhere.conf\n".toList, readErr := false }
  else if path = "other.conf".toList then
    some { data := "port = 9090\n".toList, readErr := false }
  else none

/-- The flags that `Read` defines for the schema `port` and a file name, with
their default values. -/
def portFlags : FlagSet :=
  [("p".toList, FlagVal.str []), ("h".toList, FlagVal.bool false),
    ("c".toList, FlagVal.str [])]

/-- The flags of `portFlags` after the command line `-c other.conf`. -/
def portFlagsOther : FlagSet :=
  [("p".toList, FlagVal.str []), ("h".toList, FlagVal.bool false),
    ("c".toList, FlagVal.str "other.conf".toList)]

/-- A schema in which a presence option with default `yes` is followed by an
option of the same name with an empty default. -/
def shadowSchema : Config :=
  { Items := [{ Name := "mode".toList, Arg := "a".toList, Hasval := false,
                Descr := "First declaration".toList, Dflt := "yes".toList },
              { Name := "mode".toList, Arg := "b".toList, Hasval := false,
                Descr := "Second declaration".toList, Dflt := [] }] }

/-- An option whose name `Port` has a capital letter. -/
def capitalItem : ConfigItem :=
  { Name := "Port".toList, Arg := "P".toList, Hasval := true,
    Descr := "Port, with a capital".toList, Dflt := "8080".toList }

end GoConfig

namespace GoConfig

/-! ## Map lemmas -/

theorem GoMap.get_set_same (m : GoMap) (k v : Str) : (m.set k v).get k = v := by
  induction m with
  | nil => simp [GoMap.set, GoMap.get]
  | cons e rest ih =>
    obtain ⟨k', v'⟩ := e
    by_cases h : k' = k
    · simp [GoMap.set, GoMap.get, h]
    · simp [GoMap.set, GoMap.get, h, ih]

theorem GoMap.get_set_other (m : GoMap) (k v n : Str) (hne : k ≠ n) :
    (m.set k v).get n = m.get n := by
  induction m with
  | nil => simp [GoMap.set, GoMap.get, hne]
  | cons e rest ih =>
    obtain ⟨k', v'⟩ := e
    by_cases h : k' = k
    · subst h
      simp [GoMap.set, GoMap.get, hne]
    · by_cases h2 : k' = n
      · subst h2
        simp [GoMap.set, GoMap.get, h]
      · simp [GoMap.set, GoMap.get, h, h2, ih]

theorem GoMap.has_iff_mem_keys (m : GoMap) (k : Str) : m.has k = true ↔ k ∈ m.keys := by
  induction m with
  | nil => simp [GoMap.has, GoMap.keys]
  | cons e rest ih =>
    obtain ⟨k', v'⟩ := e
    by_cases h : k' = k
    · simp [GoMap.has, GoMap.keys, h]
    · have h' : ¬ k = k' := fun e => h e.symm
      simp only [GoMap.keys] at ih
      simp [GoMap.has, GoMap.keys, h, h', ih]

theorem GoMap.keys_set (m : GoMap) (k v : Str) :
    (m.set k v).keys = if k ∈ m.keys then m.keys else m.keys ++ [k] := by
  induction m with
  | nil => simp [GoMap.set, GoMap.keys]
  | cons e rest ih =>
    obtain ⟨k', v'⟩ := e
    simp only [GoMap.keys] at ih
    by_cases h : k' = k
    · simp [GoMap.set, GoMap.keys, h]
    · have h' : ¬ k = k' := fun e => h e.symm
      by_cases hm : k ∈ List.map Prod.fst rest
      · simp only [GoMap.set, GoMap.keys, h, if_false, List.map_cons, ih, hm, if_true,
          List.mem_cons, or_true]
      · simp only [GoMap.set, GoMap.keys, h, if_false, List.map_cons, ih, hm,
          List.mem_cons, h', or_self, List.cons_append]

theorem GoMap.mem_keys_set (m : GoMap) (k v n : Str) :
    n ∈ (m.set k v).keys ↔ n ∈ m.keys ∨ n = k := by
  rw [GoMap.keys_set]
  by_cases hm : k ∈ m.keys
  · simp only [hm, if_true]
    constructor
    · exact Or.inl
    · rintro (h | h)
      · exact h
      · exact h ▸ hm
  · simp [hm]

theorem GoMap.nodup_keys_set (m : GoMap) (k v : Str) (h : m.keys.Nodup) :
    (m.set k v).keys.Nodup := by
  rw [GoMap.keys_set]
  by_cases hm : k ∈ m.keys
  · simpa [hm] using h
  · simp only [hm, if_false]
    exact List.Nodup.append h (List.nodup_singleton k) (by simpa using hm)

theorem GoMap.mem_set (m : GoMap) (k v : Str) (e : Str × Str) (h : e ∈ m.set k v) :
    e ∈ m ∨ e = (k, v) := by
  induction m with
  | nil => simpa [GoMap.set] using h
  | cons e' rest ih =>
    obtain ⟨k', v'⟩ := e'
    by_cases hk : k' = k
    · simp only [GoMap.set, hk, if_true, List.mem_cons] at h
      rcases h with h | h
      · exact Or.inr h
      · exact Or.inl (List.mem_cons_of_mem _ h)
    · simp only [GoMap.set, hk, if_false, List.mem_cons] at h
      rcases h with h | h
      · exact Or.inl (h ▸ List.mem_cons_self _ _)
      · rcases ih h with h' | h'
        · exact Or.inl (List.mem_cons_of_mem _ h')
        · exact Or.inr h'

/-! ## The merge loop -/

theorem mergeLoop_append (args conf : GoMap) (xs ys : List ConfigItem) (m : GoMap) :
    mergeLoop args conf (xs ++ ys) m = mergeLoop args conf ys (mergeLoop args conf xs m) := by
  induction xs generalizing m with
  | nil => rfl
  | cons x xs ih => simp [mergeLoop, ih]

theorem mergeLoop_get_absent (args conf : GoMap) (n : Str) (items : List ConfigItem)
    (m : GoMap) (h : ∀ x ∈ items, x.Name ≠ n) :
    (mergeLoop args conf items m).get n = m.get n := by
  induction items generalizing m with
  | nil => rfl
  | cons x xs ih =>
    have hx : x.Name ≠ n := h x (List.mem_cons_self _ _)
    have hxs : ∀ y ∈ xs, y.Name ≠ n := fun y hy => h y (List.mem_cons_of_mem _ hy)
    simp only [mergeLoop]
    rw [ih _ hxs, GoMap.get_set_other _ _ _ _ hx]

theorem mergeLoop_get_last (args conf : GoMap) (pre post : List ConfigItem) (d : ConfigItem)
    (m : GoMap) (h : ∀ x ∈ post, x.Name ≠ d.Name) :
    (mergeLoop args conf (pre ++ d :: post) m).get d.Name
      = merge (args.get d.Name) (conf.get d.Name) d.Dflt := by
  rw [mergeLoop_append]
  simp only [mergeLoop]
  rw [mergeLoop_get_absent _ _ _ _ _ h, GoMap.get_set_same]

theorem exists_last_named (items : List ConfigItem) (n : Str)
    (h : ∃ y ∈ items, y.Name = n) :
    ∃ pre d post, items = pre ++ d :: post ∧ d.Name = n ∧ ∀ x ∈ post, x.Name ≠ n := by
  induction items with
  | nil => obtain ⟨y, hy, _⟩ := h; cases hy
  | cons x xs ih =>
    by_cases hex : ∃ y ∈ xs, y.Name = n
    · obtain ⟨pre, d, post, he, hn, hp⟩ := ih hex
      exact ⟨x :: pre, d, post, by simp [he], hn, hp⟩
    · obtain ⟨y, hy, hyn⟩ := h
      rcases List.mem_cons.1 hy with hyx | hyxs
      · refine ⟨[], x, xs, rfl, hyx ▸ hyn, ?_⟩
        intro z hz hzn
        exact hex ⟨z, hz, hzn⟩
      · exact absurd ⟨y, hyxs, hyn⟩ hex

theorem mergeLoop_mem_keys (args conf : GoMap) (items : List ConfigItem) (m : GoMap) (k : Str) :
    k ∈ (mergeLoop args conf items m).keys ↔ k ∈ m.keys ∨ ∃ d ∈ items, d.Name = k := by
  induction items generalizing m with
  | nil => simp [mergeLoop]
  | cons x xs ih =>
    simp only [mergeLoop]
    rw [ih, GoMap.mem_keys_set]
    constructor
    · rintro ((h | h) | ⟨d, hd, hdn⟩)
      · exact Or.inl h
      · exact Or.inr ⟨x, List.mem_cons_self _ _, h.symm⟩
      · exact Or.inr ⟨d, List.mem_cons_of_mem _ hd, hdn⟩
    · rintro (h | ⟨d, hd, hdn⟩)
      · exact Or.inl (Or.inl h)
      · rcases List.mem_cons.1 hd with hdx | hdxs
        · exact Or.inl (Or.inr (hdx ▸ hdn.symm))
        · exact Or.inr ⟨d, hdxs, hdn⟩

theorem mergeLoop_nodup_keys (args conf : GoMap) (items : List ConfigItem) (m : GoMap)
    (h : m.keys.Nodup) : (mergeLoop args conf items m).keys.Nodup := by
  induction items generalizing m with
  | nil => exact h
  | cons x xs ih => exact ih _ (GoMap.nodup_keys_set _ _ _ h)

theorem GoMap.nodup_keys_empty : GoMap.empty.keys.Nodup := List.nodup_nil

theorem mergeItems_keys_perm (cfg : Config) (args conf : GoMap) :
    List.Perm (cfg.mergeItems args conf).keys (cfg.Items.map ConfigItem.Name).dedup := by
  unfold Config.mergeItems
  apply (List.perm_ext_iff_of_nodup
    (mergeLoop_nodup_keys args conf cfg.Items GoMap.empty GoMap.nodup_keys_empty)
    (List.nodup_dedup _)).2
  intro k
  rw [mergeLoop_mem_keys]
  simp [GoMap.empty, GoMap.keys]

/-! ## The merge resolver: precedence, fallback, default floor -/

theorem merge_arg (arg conf dflt : Str) (h : arg ≠ []) : merge arg conf dflt = arg := by
  simp [merge, h]

theorem merge_conf (conf dflt : Str) (h : conf ≠ []) : merge [] conf dflt = conf := by
  simp [merge, h]

theorem merge_dflt (dflt : Str) : merge [] [] dflt = dflt := by
  simp [merge]

theorem mergeItems_get_of_mem (cfg : Config) (args conf : GoMap) (d : ConfigItem)
    (hd : d ∈ cfg.Items) :
    ∃ d' ∈ cfg.Items, d'.Name = d.Name ∧
      (cfg.mergeItems args conf).get d.Name
        = merge (args.get d.Name) (conf.get d.Name) d'.Dflt := by
  obtain ⟨pre, d', post, he, hn, hp⟩ := exists_last_named cfg.Items d.Name ⟨d, hd, rfl⟩
  refine ⟨d', by simp [he], hn, ?_⟩
  have h := mergeLoop_get_last args conf pre post d' GoMap.empty (by simpa [hn] using hp)
  rw [hn, ← he] at h
  exact h

/-- C1 (precedence law): a non-empty command-line value of a descriptor of the
schema is the resolved value of that descriptor's name, whatever the file mapping
and the defaults hold. -/
theorem mergeItems_precedence (cfg : Config) (args conf : GoMap) (d : ConfigItem)
    (hd : d ∈ cfg.Items) (harg : args.get d.Name ≠ []) :
    (cfg.mergeItems args conf).get d.Name = args.get d.Name := by
  obtain ⟨d', _, _, h⟩ := mergeItems_get_of_mem cfg args conf d hd
  rw [h, merge_arg _ _ _ harg]

/-- Scenario of C1: `-p 7000` on the command line, `port = 9090` in the file and
the default `8080` resolve `port` to `7000`. -/
theorem mergeItems_precedence_witness :
    (portSchema.mergeItems [("port".toList, "7000".toList)]
        [("port".toList, "9090".toList)]).get portItem.Name
      = GoMap.get [("port".toList, "7000".toList)] portItem.Name
    ∧ (portSchema.mergeItems [("port".toList, "7000".toList)]
        [("port".toList, "9090".toList)]).get "port".toList = "7000".toList :=
  ⟨mergeItems_precedence portSchema [("port".toList, "7000".toList)]
      [("port".toList, "9090".toList)] portItem (by decide) (by decide), by decide⟩

/-- C2 (fallback law): when the command-line value of a descriptor of the schema
is empty or absent and its file value is non-empty, the file value is the resolved
value, whatever the default is. -/
theorem mergeItems_fallback (cfg : Config) (args conf : GoMap) (d : ConfigItem)
    (hd : d ∈ cfg.Items) (harg : args.get d.Name = []) (hconf : conf.get d.Name ≠ []) :
    (cfg.mergeItems args conf).get d.Name = conf.get d.Name := by
  obtain ⟨d', _, _, h⟩ := mergeItems_get_of_mem cfg args conf d hd
  rw [h, harg, merge_conf _ _ hconf]

/-- Scenario of C2: no `-p` on the command line, `port = 9090` in the file and the
default `8080` resolve `port` to `9090`. -/
theorem mergeItems_fallback_witness :
    (portSchema.mergeItems [("port".toList, [])]
        [("port".toList, "9090".toList)]).get portItem.Name
      = GoMap.get [("port".toList, "9090".toList)] portItem.Name
    ∧ (portSchema.mergeItems [("port".toList, [])]
        [("port".toList, "9090".toList)]).get "port".toList = "9090".toList :=
  ⟨mergeItems_fallback portSchema [("port".toList, [])]
      [("port".toList, "9090".toList)] portItem (by decide) (by decide) (by decide),
    by decide⟩

/-- C3 (default floor law): in a schema whose names are pairwise distinct, a
descriptor whose command-line value and file value are both empty or absent is
resolved to its own default, and the entry is present even when that default is
the empty string. -/
theorem mergeItems_default_floor (cfg : Config) (args conf : GoMap) (d : ConfigItem)
    (hnames : (cfg.Items.map ConfigItem.Name).Nodup) (hd : d ∈ cfg.Items)
    (harg : args.get d.Name = []) (hconf : conf.get d.Name = []) :
    (cfg.mergeItems args conf).get d.Name = d.Dflt
      ∧ (cfg.mergeItems args conf).has d.Name = true := by
  obtain ⟨d', hd', hn, h⟩ := mergeItems_get_of_mem cfg args conf d hd
  have heq : d' = d := List.inj_on_of_nodup_map hnames hd' hd hn
  constructor
  · rw [h, harg, hconf, merge_dflt, heq]
  · rw [GoMap.has_iff_mem_keys, Config.mergeItems, mergeLoop_mem_keys]
    exact Or.inr ⟨d, hd, rfl⟩

/-- Scenario of C3: no flag on the command line and no file resolve `port` to the
default `8080`. -/
theorem mergeItems_default_floor_witness :
    ((portSchema.mergeItems [("port".toList, [])] GoMap.empty).get portItem.Name
        = portItem.Dflt
      ∧ (portSchema.mergeItems [("port".toList, [])] GoMap.empty).has portItem.Name = true)
    ∧ (portSchema.mergeItems [("port".toList, [])] GoMap.empty).get "port".toList
        = "8080".toList :=
  ⟨mergeItems_default_floor portSchema [("port".toList, [])] GoMap.empty portItem
      (by decide) (by decide) (by decide) (by decide), by decide⟩

/-! ## The merge resolver: entries of the result -/

/-- C4, as stated, fails: a schema of two descriptors that share the name `port`
is resolved to a mapping with one entry, not two. -/
theorem mergeItems_totality_counterexample :
    ¬ (∀ (cfg : Config) (args conf : GoMap),
        (cfg.mergeItems args conf).len = cfg.Items.length) := by
  intro h
  exact absurd (h twicePortSchema GoMap.empty GoMap.empty) (by decide)

/-- C4, amended: the resolved mapping has exactly one entry per distinct
descriptor name. Its keys are pairwise distinct, a key is present exactly when it
is the name of a descriptor (keys that occur only in the command-line or file
mapping are not copied), the number of entries is the number of distinct names,
and that is the number of descriptors when the names are pairwise distinct. -/
theorem mergeItems_totality (cfg : Config) (args conf : GoMap) :
    (cfg.mergeItems args conf).keys.Nodup
      ∧ (∀ k, (cfg.mergeItems args conf).has k = true ↔ ∃ d ∈ cfg.Items, d.Name = k)
      ∧ (cfg.mergeItems args conf).len = (cfg.Items.map ConfigItem.Name).dedup.length
      ∧ ((cfg.Items.map ConfigItem.Name).Nodup →
          (cfg.mergeItems args conf).len = cfg.Items.length) := by
  have hperm := mergeItems_keys_perm cfg args conf
  have hlen : (cfg.mergeItems args conf).len
      = (cfg.Items.map ConfigItem.Name).dedup.length := by
    have := hperm.length_eq
    simpa [GoMap.len, GoMap.keys] using this
  refine ⟨?_, ?_, hlen, ?_⟩
  · exact mergeLoop_nodup_keys args conf cfg.Items GoMap.empty GoMap.nodup_keys_empty
  · intro k
    rw [GoMap.has_iff_mem_keys, Config.mergeItems, mergeLoop_mem_keys]
    simp [GoMap.empty, GoMap.keys]
  · intro hnd
    rw [hlen, List.Nodup.dedup hnd, List.length_map]

/-- C5 (last write wins): every name carried by at least one descriptor has a
last descriptor `d` in schema order, and the resolved value of that name is `merge`
of the command-line value, the file value and the default of `d`; the descriptors
before `d` have no influence on it, so the default of an earlier descriptor of the
same name is never used. -/
theorem mergeItems_last_write_wins (cfg : Config) (args conf : GoMap) (n : Str)
    (hn : ∃ y ∈ cfg.Items, y.Name = n) :
    ∃ pre d post, cfg.Items = pre ++ d :: post ∧ d.Name = n ∧ (∀ x ∈ post, x.Name ≠ n)
      ∧ (cfg.mergeItems args conf).get n = merge (args.get n) (conf.get n) d.Dflt
      ∧ ∀ pre' : List ConfigItem,
          (Config.mergeItems { Items := pre' ++ d :: post } args conf).get n
            = merge (args.get n) (conf.get n) d.Dflt := by
  obtain ⟨pre, d, post, he, hd, hp⟩ := exists_last_named cfg.Items n hn
  have h := fun p =>
    mergeLoop_get_last args conf p post d GoMap.empty (by rw [hd]; exact hp)
  rw [hd] at h
  refine ⟨pre, d, post, he, hd, hp, ?_, fun pre' => h pre'⟩
  have h1 := h pre
  rw [← he] at h1
  exact h1

/-- Scenario of C5: of two descriptors named `port`, the default `9999` of the
second is the resolved value, not the default `8080` of the first. -/
theorem mergeItems_last_write_wins_witness :
    (∃ pre d post, twicePortSchema.Items = pre ++ d :: post ∧ d.Name = "port".toList
      ∧ (∀ x ∈ post, x.Name ≠ "port".toList)
      ∧ (twicePortSchema.mergeItems GoMap.empty GoMap.empty).get "port".toList
          = merge (GoMap.get GoMap.empty "port".toList)
              (GoMap.get GoMap.empty "port".toList) d.Dflt
      ∧ ∀ pre' : List ConfigItem,
          (Config.mergeItems { Items := pre' ++ d :: post }
              GoMap.empty GoMap.empty).get "port".toList
            = merge (GoMap.get GoMap.empty "port".toList)
                (GoMap.get GoMap.empty "port".toList) d.Dflt)
    ∧ (twicePortSchema.mergeItems GoMap.empty GoMap.empty).get "port".toList
        = "9999".toList :=
  ⟨mergeItems_last_write_wins twicePortSchema GoMap.empty GoMap.empty "port".toList
      ⟨portItem, by decide, rfl⟩, by decide⟩

/-! ## Library functions: basic facts -/

theorem GoMap.has_set_same (m : GoMap) (k v : Str) : (m.set k v).has k = true := by
  rw [GoMap.has_iff_mem_keys, GoMap.mem_keys_set]
  exact Or.inr rfl

theorem cutFirst_some (sep : Char) (s a b : Str) (h : cutFirst sep s = some (a, b)) :
    s = a ++ sep :: b ∧ sep ∉ a := by
  induction s generalizing a b with
  | nil => simp [cutFirst] at h
  | cons c rest ih =>
    by_cases hc : c = sep
    · simp only [cutFirst, hc, if_true, Option.some.injEq, Prod.mk.injEq] at h
      obtain ⟨ha, hb⟩ := h
      subst ha hb
      simp [hc]
    · simp only [cutFirst, hc, if_false] at h
      cases hr : cutFirst sep rest with
      | none => simp [hr] at h
      | some p =>
        obtain ⟨a', b'⟩ := p
        simp only [hr, Option.some.injEq, Prod.mk.injEq] at h
        obtain ⟨ha, hb⟩ := h
        subst ha hb
        obtain ⟨h1, h2⟩ := ih a' b' hr
        refine ⟨by simp [h1], ?_⟩
        simp only [List.mem_cons, not_or]
        exact ⟨fun e => hc e.symm, h2⟩

theorem cutFirst_append (sep : Char) (a b : Str) (h : sep ∉ a) :
    cutFirst sep (a ++ sep :: b) = some (a, b) := by
  induction a with
  | nil => simp [cutFirst]
  | cons c rest ih =>
    simp only [List.mem_cons, not_or] at h
    have hc : ¬ c = sep := fun e => h.1 e.symm
    simp [cutFirst, hc, ih h.2]

theorem cutFirst_none (sep : Char) (s : Str) (h : sep ∉ s) : cutFirst sep s = none := by
  induction s with
  | nil => rfl
  | cons c rest ih =>
    simp only [List.mem_cons, not_or] at h
    have hc : ¬ c = sep := fun e => h.1 e.symm
    simp [cutFirst, hc, ih h.2]

theorem cutFirst_of_mem (sep : Char) (s : Str) (h : sep ∈ s) :
    ∃ a b, cutFirst sep s = some (a, b) := by
  cases hr : cutFirst sep s with
  | some p => exact ⟨p.1, p.2, rfl⟩
  | none =>
    exfalso
    induction s with
    | nil => cases h
    | cons c rest ih =>
      by_cases hc : c = sep
      · simp [cutFirst, hc] at hr
      · simp only [cutFirst, hc, if_false] at hr
        cases hr' : cutFirst sep rest with
        | some p => simp [hr'] at hr
        | none =>
          rcases List.mem_cons.1 h with h1 | h1
          · exact hc h1.symm
          · exact ih h1 hr'

theorem replaceGo_quote (n : Int) (hn : n < 0) (s : Str) :
    replaceGo ['"'] [] n 0 s = s.filter (fun c => c != '"') := by
  induction s generalizing n with
  | nil => simp [replaceGo]
  | cons c rest ih =>
    have hn0 : n ≠ 0 := by omega
    have hn1 : n - 1 < 0 := by omega
    by_cases hc : c = '"'
    · subst hc
      simp [replaceGo, hn0, ih (n - 1) hn1]
    · have hc' : ¬ '"' = c := fun e => hc e.symm
      simp [replaceGo, hn0, hc, hc', ih n hn]

theorem Replace_quote (s : Str) :
    Replace s ['"'] [] (-1) = s.filter (fun c => c != '"') :=
  replaceGo_quote (-1) (by decide) s

theorem Replace_quote_not_mem (s : Str) : '"' ∉ Replace s ['"'] [] (-1) := by
  rw [Replace_quote]
  simp [List.mem_filter]

/-! ## The loop body and the scan loop -/

theorem lineStep_eq (tbl : Char → Char) (cfg : GoMap) (text : Str) :
    lineStep tbl cfg text
      = match lineEntry tbl text with
        | none => cfg
        | some (k, v) => cfg.set k v := by
  unfold lineStep lineEntry SplitN2
  by_cases hp : HasPrefix text ['#'] = true
  · simp [hp]
  · cases hr : cutFirst '=' text with
    | none => simp [hp]
    | some p => obtain ⟨a, b⟩ := p; simp [hp]

theorem lineEntry_some (tbl : Char → Char) (text : Str) (e : Str × Str)
    (h : lineEntry tbl text = some e) :
    HasPrefix text ['#'] = false ∧ ∃ before after, text = before ++ '=' :: after
      ∧ '=' ∉ before ∧ e.1 = ToLower tbl (TrimSpace before)
      ∧ e.2 = Replace (TrimSpace after) ['"'] [] (-1) := by
  unfold lineEntry at h
  by_cases hp : HasPrefix text ['#'] = true
  · simp [hp] at h
  · simp only [hp] at h
    cases hr : cutFirst '=' text with
    | none => simp [hr] at h
    | some p =>
      obtain ⟨a, b⟩ := p
      simp only [hr, Bool.false_eq_true, if_false, Option.some.injEq] at h
      obtain ⟨h1, h2⟩ := cutFirst_some '=' text a b hr
      refine ⟨by simpa using hp, a, b, h1, h2, ?_, ?_⟩
      · rw [← h]
      · rw [← h]

theorem lineEntry_append (tbl : Char → Char) (before after : Str)
    (hc : HasPrefix (before ++ '=' :: after) ['#'] = false) (hfirst : '=' ∉ before) :
    lineEntry tbl (before ++ '=' :: after)
      = some (ToLower tbl (TrimSpace before), Replace (TrimSpace after) ['"'] [] (-1)) := by
  unfold lineEntry
  simp [hc, cutFirst_append '=' before after hfirst]

theorem lineEntry_none (tbl : Char → Char) (text : Str)
    (h : HasPrefix text ['#'] = true ∨ '=' ∉ text) : lineEntry tbl text = none := by
  unfold lineEntry
  rcases h with h | h
  · simp [h]
  · simp [cutFirst_none '=' text h]

/-- The map after the loop body has run on every token of `toks` in turn. -/
theorem scanLoop_ok (tbl : Char → Char) (readErr : Bool) (toks : List Str) (cfg m : GoMap) :
    scanLoop tbl readErr toks cfg = (m, false)
      ↔ readErr = false ∧ (∀ raw ∈ toks, byteLen raw < MaxScanTokenSize)
        ∧ m = toks.foldl (fun c raw => lineStep tbl c (dropCR raw)) cfg := by
  induction toks generalizing cfg with
  | nil =>
    simp only [scanLoop, Prod.mk.injEq, List.not_mem_nil, false_implies, implies_true,
      List.foldl_nil, true_and]
    constructor
    · rintro ⟨h1, h2⟩; exact ⟨h2, h1.symm⟩
    · rintro ⟨h1, h2⟩; exact ⟨h2.symm, h1⟩
  | cons raw rest ih =>
    by_cases hlen : MaxScanTokenSize ≤ byteLen raw
    · simp only [scanLoop, hlen, if_true, Prod.mk.injEq, Bool.true_eq_false, and_false,
        List.mem_cons, forall_eq_or_imp, false_iff, not_and]
      intro _ h
      exact absurd h.1 (by omega)
    · simp only [scanLoop, hlen, if_false, ih, List.mem_cons, forall_eq_or_imp,
        List.foldl_cons]
      constructor
      · rintro ⟨h1, h2, h3⟩; exact ⟨h1, ⟨by omega, h2⟩, h3⟩
      · rintro ⟨h1, ⟨_, h2⟩, h3⟩; exact ⟨h1, h2, h3⟩

theorem readConfigFile_some (tbl : Char → Char) (fs : FileSystem) (filename : Str)
    (m : GoMap) (err : Option Str) (h : readConfigFile tbl fs filename = some (m, err)) :
    (fs filename = none ∧ m = GoMap.empty ∧ err = some openErrorText)
      ∨ ∃ file, fs filename = some file ∧ file.readErr = false
          ∧ (∀ raw ∈ rawLines file.data, byteLen raw < MaxScanTokenSize)
          ∧ m = (rawLines file.data).foldl (fun c raw => lineStep tbl c (dropCR raw))
                  GoMap.empty
          ∧ err = none := by
  unfold readConfigFile at h
  cases hf : fs filename with
  | none =>
    simp only [hf, Option.some.injEq, Prod.mk.injEq] at h
    exact Or.inl ⟨rfl, h.1.symm, h.2.symm⟩
  | some file =>
    simp only [hf] at h
    cases hs : scanLoop tbl file.readErr (rawLines file.data) GoMap.empty with
    | mk c b =>
      cases b with
      | true => simp [hs] at h
      | false =>
        simp only [hs, Option.some.injEq, Prod.mk.injEq] at h
        obtain ⟨h1, h2, h3⟩ := (scanLoop_ok tbl file.readErr _ GoMap.empty c).1 hs
        exact Or.inr ⟨file, rfl, h1, h2, by rw [← h.1, h3], h.2.symm⟩

theorem readConfigFile_of_ok (tbl : Char → Char) (fs : FileSystem) (filename : Str)
    (file : File) (hopen : fs filename = some file) (hread : file.readErr = false)
    (hshort : ∀ raw ∈ rawLines file.data, byteLen raw < MaxScanTokenSize) :
    readConfigFile tbl fs filename
      = some ((rawLines file.data).foldl (fun c raw => lineStep tbl c (dropCR raw))
          GoMap.empty, none) := by
  unfold readConfigFile
  simp only [hopen]
  rw [(scanLoop_ok tbl file.readErr _ GoMap.empty _).2 ⟨hread, hshort, rfl⟩]

theorem foldl_lineStep_mem (tbl : Char → Char) (toks : List Str) (cfg : GoMap)
    (e : Str × Str)
    (h : e ∈ toks.foldl (fun c raw => lineStep tbl c (dropCR raw)) cfg) :
    e ∈ cfg ∨ ∃ raw ∈ toks, lineEntry tbl (dropCR raw) = some e := by
  induction toks generalizing cfg with
  | nil => exact Or.inl h
  | cons raw rest ih =>
    rw [List.foldl_cons] at h
    rcases ih _ h with h1 | ⟨r, hr, hre⟩
    · rw [lineStep_eq] at h1
      cases hl : lineEntry tbl (dropCR raw) with
      | none =>
        rw [hl] at h1
        exact Or.inl h1
      | some p =>
        obtain ⟨k, v⟩ := p
        rw [hl] at h1
        rcases GoMap.mem_set cfg k v e h1 with h2 | h2
        · exact Or.inl h2
        · exact Or.inr ⟨raw, List.mem_cons_self _ _, by rw [h2]; exact hl⟩
    · exact Or.inr ⟨r, List.mem_cons_of_mem _ hr, hre⟩

theorem foldl_lineStep_get_absent (tbl : Char → Char) (toks : List Str) (cfg : GoMap)
    (k : Str) (h : ∀ r ∈ toks, ∀ v, lineEntry tbl (dropCR r) ≠ some (k, v)) :
    (toks.foldl (fun c raw => lineStep tbl c (dropCR raw)) cfg).get k = cfg.get k
      ∧ (toks.foldl (fun c raw => lineStep tbl c (dropCR raw)) cfg).has k = cfg.has k := by
  induction toks generalizing cfg with
  | nil => exact ⟨rfl, rfl⟩
  | cons raw rest ih =>
    rw [List.foldl_cons]
    have hrest : ∀ r ∈ rest, ∀ v, lineEntry tbl (dropCR r) ≠ some (k, v) :=
      fun r hr => h r (List.mem_cons_of_mem _ hr)
    obtain ⟨ih1, ih2⟩ := ih (lineStep tbl cfg (dropCR raw)) hrest
    rw [ih1, ih2, lineStep_eq]
    cases hl : lineEntry tbl (dropCR raw) with
    | none => exact ⟨rfl, rfl⟩
    | some p =>
      obtain ⟨k', v'⟩ := p
      have hne : k' ≠ k := by
        intro e
        exact h raw (List.mem_cons_self _ _) v' (by rw [hl, e])
      refine ⟨GoMap.get_set_other cfg k' v' k hne, ?_⟩
      have hiff : (cfg.set k' v').has k = true ↔ cfg.has k = true := by
        rw [GoMap.has_iff_mem_keys, GoMap.has_iff_mem_keys, GoMap.mem_keys_set]
        constructor
        · rintro (h1 | h1)
          · exact h1
          · exact absurd h1.symm hne
        · exact Or.inl
      exact Bool.eq_iff_iff.2 hiff

/-! ## The file reader: separator, quotes, duplicate keys -/

/-- C6 (first `=` separates): a line that does not start with `#` and contains
an `=` splits at its first `=` into the text before and all the text after; the
loop body stores one entry, whose key is the text before, trimmed and lower-cased,
and whose value is the text after, trimmed and without double quotes, so that
every later `=` stays in the value. -/
theorem lineStep_first_separator (tbl : Char → Char) (cfg : GoMap) (text : Str)
    (hc : HasPrefix text ['#'] = false) (heq : '=' ∈ text) :
    ∃ before after, text = before ++ '=' :: after ∧ '=' ∉ before
      ∧ lineStep tbl cfg text
          = cfg.set (ToLower tbl (TrimSpace before)) (Replace (TrimSpace after) ['"'] [] (-1))
      ∧ (lineStep tbl cfg text).has (ToLower tbl (TrimSpace before)) = true
      ∧ (lineStep tbl cfg text).get (ToLower tbl (TrimSpace before))
          = (TrimSpace after).filter (fun c => c != '"') := by
  obtain ⟨a, b, hab⟩ := cutFirst_of_mem '=' text heq
  obtain ⟨h1, h2⟩ := cutFirst_some '=' text a b hab
  have hstep : lineStep tbl cfg text
      = cfg.set (ToLower tbl (TrimSpace a)) (Replace (TrimSpace b) ['"'] [] (-1)) := by
    rw [lineStep_eq]
    have := lineEntry_append tbl a b (by rw [← h1]; exact hc) h2
    rw [← h1] at this
    rw [this]
  refine ⟨a, b, h1, h2, hstep, ?_, ?_⟩
  · rw [hstep, GoMap.has_set_same]
  · rw [hstep, GoMap.get_set_same, Replace_quote]

/-- Scenario of C6: the line `a = b=c` is stored as key `a` with value `b=c`. -/
theorem lineStep_first_separator_witness :
    (∃ before after, "a = b=c".toList = before ++ '=' :: after ∧ '=' ∉ before
      ∧ lineStep id GoMap.empty "a = b=c".toList
          = GoMap.set GoMap.empty (ToLower id (TrimSpace before))
              (Replace (TrimSpace after) ['"'] [] (-1))
      ∧ (lineStep id GoMap.empty "a = b=c".toList).has (ToLower id (TrimSpace before)) = true
      ∧ (lineStep id GoMap.empty "a = b=c".toList).get (ToLower id (TrimSpace before))
          = (TrimSpace after).filter (fun c => c != '"'))
    ∧ lineStep id GoMap.empty "a = b=c".toList = [("a".toList, "b=c".toList)] :=
  ⟨lineStep_first_separator id GoMap.empty "a = b=c".toList (by decide) (by decide),
    by decide⟩

/-- C7 (quote stripping): no value of the mapping returned by the file reader
contains a double quote; every stored pair comes from a line of the file that is
not a comment, its value being the text after the first `=` of that line, trimmed
of surrounding white space, with every double quote deleted and every other
character kept in order. -/
theorem readConfigFile_quote_stripping (tbl : Char → Char) (fs : FileSystem)
    (filename : Str) (m : GoMap) (err : Option Str) (k v : Str)
    (h : readConfigFile tbl fs filename = some (m, err)) (hmem : (k, v) ∈ m) :
    '"' ∉ v ∧ ∃ file, fs filename = some file ∧ ∃ raw ∈ rawLines file.data,
      ∃ before after, dropCR raw = before ++ '=' :: after ∧ '=' ∉ before
        ∧ k = ToLower tbl (TrimSpace before)
        ∧ v = (TrimSpace after).filter (fun c => c != '"') := by
  rcases readConfigFile_some tbl fs filename m err h with ⟨_, hm, _⟩ | ⟨file, hf, _, _, hm, _⟩
  · rw [hm] at hmem
    cases hmem
  · rw [hm] at hmem
    rcases foldl_lineStep_mem tbl _ _ _ hmem with h1 | ⟨raw, hraw, he⟩
    · cases h1
    · obtain ⟨_, before, after, hd, hb, hk, hv⟩ := lineEntry_some tbl _ _ he
      simp only at hk hv
      refine ⟨?_, file, hf, raw, hraw, before, after, hd, hb, hk, ?_⟩
      · rw [hv]
        exact Replace_quote_not_mem _
      · rw [hv, Replace_quote]

/-- Scenario of C7: the value `"hello world"` is stored as `hello world`. -/
theorem readConfigFile_quote_stripping_witness :
    ('"' ∉ "hello world".toList
      ∧ ∃ file, (fun _ => some ⟨"greeting = \"hello world\"\n".toList, false⟩ : FileSystem)
            "app.conf".toList = some file
          ∧ ∃ raw ∈ rawLines file.data, ∃ before after,
            dropCR raw = before ++ '=' :: after ∧ '=' ∉ before
              ∧ "greeting".toList = ToLower id (TrimSpace before)
              ∧ "hello world".toList = (TrimSpace after).filter (fun c => c != '"'))
    ∧ readConfigFile id (fun _ => some ⟨"greeting = \"hello world\"\n".toList, false⟩)
          "app.conf".toList
        = some ([("greeting".toList, "hello world".toList)], none) :=
  ⟨readConfigFile_quote_stripping id
      (fun _ => some ⟨"greeting = \"hello world\"\n".toList, false⟩) "app.conf".toList
      [("greeting".toList, "hello world".toList)] none "greeting".toList
      "hello world".toList (by decide) (by decide),
    by decide⟩

/-- C9 (last occurrence wins): when a line of the file is a directive with key
`k` (the text before its first `=`, trimmed and lower-cased) and no later line is
a directive with that key, the mapping returned by the file reader holds for `k`
the value computed from that line, also when that value is empty. -/
theorem readConfigFile_last_key_wins (tbl : Char → Char) (fs : FileSystem)
    (filename : Str) (file : File) (m : GoMap) (err : Option Str)
    (pre post : List Str) (raw before after : Str)
    (h : readConfigFile tbl fs filename = some (m, err))
    (hopen : fs filename = some file)
    (hsplit : rawLines file.data = pre ++ raw :: post)
    (hcomment : HasPrefix (dropCR raw) ['#'] = false)
    (hline : dropCR raw = before ++ '=' :: after) (hfirst : '=' ∉ before)
    (hlast : ∀ r ∈ post, ∀ b a, HasPrefix (dropCR r) ['#'] = false →
      dropCR r = b ++ '=' :: a → '=' ∉ b →
      ToLower tbl (TrimSpace b) ≠ ToLower tbl (TrimSpace before)) :
    m.has (ToLower tbl (TrimSpace before)) = true
      ∧ m.get (ToLower tbl (TrimSpace before))
          = (TrimSpace after).filter (fun c => c != '"') := by
  rcases readConfigFile_some tbl fs filename m err h with ⟨hn, _, _⟩ | ⟨file', hf, _, _, hm, _⟩
  · rw [hn] at hopen
    cases hopen
  · rw [hopen] at hf
    cases hf
    have hpost : ∀ r ∈ post, ∀ v,
        lineEntry tbl (dropCR r) ≠ some (ToLower tbl (TrimSpace before), v) := by
      intro r hr v he
      obtain ⟨hc, b, a, hd, hb, hk, _⟩ := lineEntry_some tbl _ _ he
      exact hlast r hr b a hc hd hb hk.symm
    have hentry : lineEntry tbl (dropCR raw)
        = some (ToLower tbl (TrimSpace before), Replace (TrimSpace after) ['"'] [] (-1)) := by
      rw [hline]
      exact lineEntry_append tbl before after (by rw [← hline]; exact hcomment) hfirst
    rw [hm, hsplit, List.foldl_append, List.foldl_cons]
    obtain ⟨h1, h2⟩ := foldl_lineStep_get_absent tbl post
      (lineStep tbl (pre.foldl (fun c raw => lineStep tbl c (dropCR raw)) GoMap.empty)
        (dropCR raw)) _ hpost
    rw [h1, h2, lineStep_eq, hentry]
    exact ⟨GoMap.has_set_same _ _ _, by rw [GoMap.get_set_same, Replace_quote]⟩

/-- Scenario of C9: after `a = 1`, the later line `A = ` has the same key and an
empty value, and the empty value is the one that is stored. -/
theorem readConfigFile_last_key_wins_witness :
    (GoMap.has [("a".toList, [])] (ToLower id (TrimSpace "A ".toList)) = true
      ∧ GoMap.get [("a".toList, [])] (ToLower id (TrimSpace "A ".toList))
          = (TrimSpace " ".toList).filter (fun c => c != '"'))
    ∧ readConfigFile id (fun _ => some ⟨"a = 1\nA = \n".toList, false⟩) "app.conf".toList
        = some ([("a".toList, [])], none) :=
  ⟨readConfigFile_last_key_wins id (fun _ => some ⟨"a = 1\nA = \n".toList, false⟩)
      "app.conf".toList ⟨"a = 1\nA = \n".toList, false⟩ [("a".toList, [])] none
      ["a = 1".toList] [] "A = ".toList "A ".toList " ".toList
      (by decide) rfl (by decide) (by decide) (by decide) (by decide) (by simp),
    by decide⟩

/-! ## The file reader: comments, malformed lines, scan errors -/

theorem rawLines_single (s : Str) (hne : s ≠ []) (hnl : '\n' ∉ s) : rawLines s = [s] := by
  induction s with
  | nil => exact absurd rfl hne
  | cons c rest ih =>
    simp only [List.mem_cons, not_or] at hnl
    have hc : ¬ c = '\n' := fun e => hnl.1 e.symm
    cases rest with
    | nil => simp [rawLines, hc]
    | cons c' rest' =>
      have h := ih (by simp) hnl.2
      rw [rawLines, if_neg hc, h]

theorem mem_of_mem_dropCR (c : Char) (s : Str) (h : c ∈ dropCR s) : c ∈ s := by
  unfold dropCR at h
  split at h
  · exact List.mem_of_mem_dropLast h
  · exact h

theorem byteLen_replicate_x (n : Nat) : byteLen (List.replicate n 'x') = n := by
  have h : Char.utf8Size 'x' = 1 := by decide
  rw [byteLen, List.map_replicate, h, List.sum_replicate, smul_eq_mul, mul_one]

theorem readConfigFile_too_long (tbl : Char → Char) (fs : FileSystem) (filename : Str)
    (file : File) (raw : Str) (rest : List Str) (hopen : fs filename = some file)
    (hlines : rawLines file.data = raw :: rest) (hlen : MaxScanTokenSize ≤ byteLen raw) :
    readConfigFile tbl fs filename = none := by
  simp only [readConfigFile, hopen, hlines, scanLoop, hlen, if_true]

theorem lineStep_skip (tbl : Char → Char) (cfg : GoMap) (text : Str)
    (h : HasPrefix text ['#'] = true ∨ '=' ∉ text) : lineStep tbl cfg text = cfg := by
  rw [lineStep_eq, lineEntry_none tbl text h]

theorem foldl_lineStep_skip (tbl : Char → Char) (toks : List Str) (cfg : GoMap)
    (h : ∀ raw ∈ toks, HasPrefix (dropCR raw) ['#'] = true ∨ '=' ∉ dropCR raw) :
    toks.foldl (fun c raw => lineStep tbl c (dropCR raw)) cfg = cfg := by
  induction toks generalizing cfg with
  | nil => rfl
  | cons raw rest ih =>
    rw [List.foldl_cons, lineStep_skip tbl cfg _ (h raw (List.mem_cons_self _ _))]
    exact ih cfg (fun r hr => h r (List.mem_cons_of_mem _ hr))

/-- C10, as stated, fails: a file that opens, whose single line of 65536
characters `x` has no `=`, does not make the file reader return the empty mapping
and a nil error; the scan stops with `bufio.ErrTooLong` and `log.Fatal` ends the
process. -/
theorem readConfigFile_immunity_counterexample :
    ¬ (∀ (tbl : Char → Char) (fs : FileSystem) (filename : Str) (file : File),
        fs filename = some file →
        (∀ raw ∈ rawLines file.data,
          HasPrefix (dropCR raw) ['#'] = true ∨ '=' ∉ dropCR raw) →
        readConfigFile tbl fs filename = some (GoMap.empty, none)) := by
  intro hall
  have hne : List.replicate 65536 'x' ≠ [] := by
    intro e
    have h := congrArg List.length e
    rw [List.length_replicate] at h
    exact absurd h (by decide)
  have hnl : '\n' ∉ List.replicate 65536 'x' :=
    fun hm => absurd (List.eq_of_mem_replicate hm) (by decide)
  have heq : '=' ∉ List.replicate 65536 'x' :=
    fun hm => absurd (List.eq_of_mem_replicate hm) (by decide)
  have hlines : rawLines (List.replicate 65536 'x') = [List.replicate 65536 'x'] :=
    rawLines_single _ hne hnl
  have hlen : MaxScanTokenSize ≤ byteLen (List.replicate 65536 'x') := by
    rw [byteLen_replicate_x]
    decide
  have hnone : readConfigFile id (fun _ => some ⟨List.replicate 65536 'x', false⟩) []
      = none :=
    readConfigFile_too_long id _ [] ⟨List.replicate 65536 'x', false⟩ _ [] rfl hlines hlen
  have hsome := hall id (fun _ => some ⟨List.replicate 65536 'x', false⟩) []
    ⟨List.replicate 65536 'x', false⟩ rfl (by
      intro raw hraw
      rw [hlines] at hraw
      refine Or.inr (fun hmem => heq ?_)
      rw [← List.mem_singleton.1 hraw]
      exact mem_of_mem_dropCR _ _ hmem)
  rw [hnone] at hsome
  cases hsome

/-- C10, amended: when the file opens, no read fails, every line is shorter than
`bufio.MaxScanTokenSize` bytes, and every line starts with `#` or contains no `=`,
the file reader returns the empty mapping and a nil error. A line that starts with
`#` or has no `=` never adds or changes an entry, and the three lines `  # comment`,
`BAD LINE NO EQUALS`, `name = "Bob"` give exactly the mapping of `name` to `Bob`. -/
theorem readConfigFile_immunity (tbl : Char → Char) (fs : FileSystem) (filename : Str)
    (file : File) (hopen : fs filename = some file) (hread : file.readErr = false)
    (hshort : ∀ raw ∈ rawLines file.data, byteLen raw < MaxScanTokenSize)
    (hlines : ∀ raw ∈ rawLines file.data,
      HasPrefix (dropCR raw) ['#'] = true ∨ '=' ∉ dropCR raw) :
    readConfigFile tbl fs filename = some (GoMap.empty, none)
      ∧ (∀ (cfg : GoMap) (text : Str),
          HasPrefix text ['#'] = true ∨ '=' ∉ text → lineStep tbl cfg text = cfg)
      ∧ readConfigFile tbl
          (fun _ => some ⟨"  # comment\nBAD LINE NO EQUALS\nname = \"Bob\"".toList, false⟩)
          "app.conf".toList
        = some ([("name".toList, "Bob".toList)], none) := by
  refine ⟨?_, fun cfg text h => lineStep_skip tbl cfg text h, ?_⟩
  · rw [readConfigFile_of_ok tbl fs filename file hopen hread hshort,
      foldl_lineStep_skip tbl _ _ hlines]
  · rfl

/-- Scenario of C10: a file of one comment line and one line without `=` gives
the empty mapping and a nil error. -/
theorem readConfigFile_immunity_witness :
    readConfigFile id (fun _ => some ⟨"# only a comment\nno equals here\n".toList, false⟩)
        "app.conf".toList = some (GoMap.empty, none)
      ∧ (∀ (cfg : GoMap) (text : Str),
          HasPrefix text ['#'] = true ∨ '=' ∉ text → lineStep id cfg text = cfg)
      ∧ readConfigFile id
          (fun _ => some ⟨"  # comment\nBAD LINE NO EQUALS\nname = \"Bob\"".toList, false⟩)
          "app.conf".toList
        = some ([("name".toList, "Bob".toList)], none) :=
  readConfigFile_immunity id
    (fun _ => some ⟨"# only a comment\nno equals here\n".toList, false⟩) "app.conf".toList
    ⟨"# only a comment\nno equals here\n".toList, false⟩ rfl rfl (by decide) (by decide)

/-! ## The file reader: case normalization -/

theorem dropWhile_trailing (p : Char → Bool) (c : Char) (hc : p c = true) (s : Str) :
    ((s ++ [c]).dropWhile p).reverse.dropWhile p = (s.dropWhile p).reverse.dropWhile p := by
  induction s with
  | nil => simp [hc]
  | cons a rest ih =>
    by_cases ha : p a = true
    · simpa [ha] using ih
    · simp [ha, hc]

theorem TrimSpace_append_space (s : Str) : TrimSpace (s ++ [' ']) = TrimSpace s := by
  unfold TrimSpace
  rw [dropWhile_trailing isSpace ' ' (by decide) s]

theorem TrimSpace_cons_space (s : Str) : TrimSpace (' ' :: s) = TrimSpace s := by
  unfold TrimSpace
  have h : isSpace ' ' = true := by decide
  rw [List.dropWhile_cons_of_pos h]

theorem HasPrefix_hash_append (k rest : Str) (hk : HasPrefix k ['#'] = false) :
    HasPrefix (k ++ ' ' :: rest) ['#'] = false := by
  cases k with
  | nil => simp [HasPrefix, List.isPrefixOf]
  | cons c k' => simpa [HasPrefix, List.isPrefixOf] using hk

/-- C8, as stated, fails at three inputs. The line `#foo = 1` is a comment, so
nothing is stored for the descriptor `#foo` and its resolved value is the default.
The line `a=b = 1` is split at its first `=`, so it is stored under `a` and not
under the descriptor name `a=b`. The line `name = "Bob"` resolves `name` to `Bob`,
which is not the text `"Bob"` of the line. -/
theorem case_normalization_counterexample :
    (ToLower id hashItem.Name = hashItem.Name ∧ TrimSpace hashItem.Name = hashItem.Name
      ∧ ToLower id (TrimSpace "#foo".toList) = hashItem.Name
      ∧ readConfigFile id (oneFile "#foo = 1") "app.conf".toList
          = some (GoMap.empty, none)
      ∧ (Config.mergeItems { Items := [hashItem] } [(hashItem.Name, [])]
            GoMap.empty).get hashItem.Name ≠ "1".toList)
    ∧ (ToLower id eqItem.Name = eqItem.Name ∧ TrimSpace eqItem.Name = eqItem.Name
      ∧ ToLower id (TrimSpace "a=b".toList) = eqItem.Name
      ∧ readConfigFile id (oneFile "a=b = 1") "app.conf".toList
          = some ([("a".toList, "b = 1".toList)], none)
      ∧ (Config.mergeItems { Items := [eqItem] } [(eqItem.Name, [])]
            [("a".toList, "b = 1".toList)]).get eqItem.Name ≠ "1".toList)
    ∧ (ToLower id nameItem.Name = nameItem.Name ∧ TrimSpace nameItem.Name = nameItem.Name
      ∧ ToLower id (TrimSpace "name".toList) = nameItem.Name
      ∧ readConfigFile id (oneFile "name = \"Bob\"") "app.conf".toList
          = some ([("name".toList, "Bob".toList)], none)
      ∧ (Config.mergeItems { Items := [nameItem] } [(nameItem.Name, [])]
            [("name".toList, "Bob".toList)]).get nameItem.Name ≠ "\"Bob\"".toList) := by
  refine ⟨⟨?_, ?_, ?_, ?_, ?_⟩, ⟨?_, ?_, ?_, ?_, ?_⟩, ?_, ?_, ?_, ?_, ?_⟩ <;> decide

/-- C8, amended (case normalization): for a key text `k` that does not start with
`#`, contains no `=`, and is the name of a descriptor once trimmed and lower-cased,
the loop body stores the line `k = v` under that name, with the value `v` trimmed
and without double quotes. With an empty command-line value and that stored value
non-empty, the name is resolved to the stored value, which is `v` itself when `v`
has no surrounding white space and no double quote. -/
theorem lineStep_case_normalization (tbl : Char → Char) (cfg : Config) (d : ConfigItem)
    (args cur : GoMap) (k v : Str) (hd : d ∈ cfg.Items)
    (hkey : ToLower tbl (TrimSpace k) = d.Name)
    (hhash : HasPrefix k ['#'] = false) (heq : '=' ∉ k) :
    lineStep tbl cur (k ++ " = ".toList ++ v)
        = cur.set d.Name ((TrimSpace v).filter (fun c => c != '"'))
      ∧ (args.get d.Name = [] → (TrimSpace v).filter (fun c => c != '"') ≠ [] →
          (cfg.mergeItems args (lineStep tbl cur (k ++ " = ".toList ++ v))).get d.Name
            = (TrimSpace v).filter (fun c => c != '"'))
      ∧ (TrimSpace v = v → '"' ∉ v → (TrimSpace v).filter (fun c => c != '"') = v) := by
  have hshape : k ++ " = ".toList ++ v = (k ++ [' ']) ++ '=' :: (' ' :: v) := by
    simp
  have hfirst : '=' ∉ k ++ [' '] := by
    intro hm
    rcases List.mem_append.1 hm with h | h
    · exact heq h
    · exact absurd (List.mem_singleton.1 h) (by decide)
  have hcomment : HasPrefix ((k ++ [' ']) ++ '=' :: (' ' :: v)) ['#'] = false := by
    have := HasPrefix_hash_append k ('=' :: ' ' :: v) hhash
    simpa using this
  have hstep : lineStep tbl cur (k ++ " = ".toList ++ v)
      = cur.set d.Name ((TrimSpace v).filter (fun c => c != '"')) := by
    rw [hshape, lineStep_eq, lineEntry_append tbl _ _ hcomment hfirst,
      TrimSpace_append_space, TrimSpace_cons_space, hkey, Replace_quote]
  refine ⟨hstep, ?_, ?_⟩
  · intro harg hval
    have hget : (lineStep tbl cur (k ++ " = ".toList ++ v)).get d.Name
        = (TrimSpace v).filter (fun c => c != '"') := by
      rw [hstep, GoMap.get_set_same]
    obtain ⟨d', _, _, h⟩ :=
      mergeItems_get_of_mem cfg args (lineStep tbl cur (k ++ " = ".toList ++ v)) d hd
    rw [h, harg, hget, merge_conf _ _ hval]
  · intro htrim hquote
    rw [htrim, List.filter_eq_self]
    intro c hc
    have : c ≠ '"' := fun e => hquote (e ▸ hc)
    simpa using this

/-- Scenario of C8: the keys `Foo`, `FOO` and ` foo ` of a file all reach the
descriptor named `foo`. -/
theorem lineStep_case_normalization_witness :
    (lineStep id GoMap.empty ("Foo".toList ++ " = ".toList ++ "bar".toList)
        = GoMap.set GoMap.empty fooItem.Name
            ((TrimSpace "bar".toList).filter (fun c => c != '"'))
      ∧ (GoMap.get GoMap.empty fooItem.Name = [] →
          (TrimSpace "bar".toList).filter (fun c => c != '"') ≠ [] →
          (Config.mergeItems { Items := [fooItem] } GoMap.empty
              (lineStep id GoMap.empty
                ("Foo".toList ++ " = ".toList ++ "bar".toList))).get fooItem.Name
            = (TrimSpace "bar".toList).filter (fun c => c != '"'))
      ∧ (TrimSpace "bar".toList = "bar".toList → '"' ∉ "bar".toList →
          (TrimSpace "bar".toList).filter (fun c => c != '"') = "bar".toList))
    ∧ readConfigFile id (oneFile "Foo = bar") "app.conf".toList
        = some ([("foo".toList, "bar".toList)], none)
    ∧ readConfigFile id (oneFile "FOO = bar") "app.conf".toList
        = some ([("foo".toList, "bar".toList)], none)
    ∧ readConfigFile id (oneFile " foo  = bar") "app.conf".toList
        = some ([("foo".toList, "bar".toList)], none)
    ∧ (Config.mergeItems { Items := [fooItem] } GoMap.empty
        [("foo".toList, "bar".toList)]).get "foo".toList = "bar".toList :=
  ⟨lineStep_case_normalization id { Items := [fooItem] } fooItem GoMap.empty GoMap.empty
      "Foo".toList "bar".toList (by decide) (by decide) (by decide) (by decide),
    by decide, by decide, by decide, by decide⟩

/-! ## Registering options -/

/-- C15 (pure append): after `AddOption` the list of descriptors is the previous
list followed by one descriptor with the five given fields; the call is total,
accepts a name that is already present, and leaves the earlier descriptors and
their order as they were. -/
theorem AddOption_append (cfg : Config) (name arg : Str) (hasval : Bool) (descr dflt : Str) :
    (cfg.AddOption name arg hasval descr dflt).Items
        = cfg.Items ++ [{ Name := name, Arg := arg, Hasval := hasval, Descr := descr,
                          Dflt := dflt }]
      ∧ (cfg.AddOption name arg hasval descr dflt).Items.length = cfg.Items.length + 1
      ∧ (cfg.AddOption name arg hasval descr dflt).Items.take cfg.Items.length = cfg.Items := by
  refine ⟨rfl, ?_, ?_⟩
  · simp [Config.AddOption]
  · simp [Config.AddOption]

/-! ## The usage table -/

theorem usageLoop_eq (items : List ConfigItem) (out : List Str) :
    usageLoop items out
      = out ++ (items.filter (fun ci => decide (ci.Arg ≠ []))).map usageLine := by
  induction items generalizing out with
  | nil => simp [usageLoop]
  | cons ci rest ih =>
    by_cases h : ci.Arg = []
    · simp [usageLoop, h, ih]
    · have hl : ¬ ci.Arg.length = 0 := by
        intro e
        exact h (List.length_eq_zero.1 e)
      simp [usageLoop, h, hl, ih]

theorem length_padRight (w : Nat) (s : Str) : (padRight w s).length = max w s.length := by
  simp only [padRight, List.length_append, List.length_replicate]
  omega

/-- C16, as stated, fails: for the value option `port` with flag `p` the usage
line carries the token `-p <port>`, with the name between angle brackets; the text
`-p port` (dash, flag, blank, name) does not occur in the line. -/
theorem PrintUsage_token_counterexample :
    portSchema.PrintUsage "Usage:".toList
        = ["Usage:\n".toList, "     -p <port>          : Port to listen on\n".toList]
      ∧ ¬ ("-p port".toList <:+: "     -p <port>          : Port to listen on\n".toList) := by
  constructor <;> decide

/-- C16, amended: `PrintUsage` writes the title line and then one line for every
descriptor whose flag is not empty, in schema order, and nothing for a descriptor
whose flag is empty. The line of a descriptor is three blanks, the token padded
with blanks to 20 characters, ` : `, the description and a line feed; the token is
two blanks, `-`, the flag and, for a descriptor that takes a value, a blank and the
name between `<` and `>`. -/
theorem PrintUsage_lines (cfg : Config) (title : Str) :
    cfg.PrintUsage title
        = (title ++ ['\n'])
            :: (cfg.Items.filter (fun ci => decide (ci.Arg ≠ []))).map usageLine
      ∧ ∀ ci : ConfigItem, usageLine ci
          = [' ', ' ', ' ']
            ++ padRight 20
                (if ci.Hasval = true then
                  [' ', ' ', '-'] ++ ci.Arg ++ [' ', '<'] ++ ci.Name ++ ['>']
                 else [' ', ' ', '-'] ++ ci.Arg)
            ++ [' ', ':', ' '] ++ ci.Descr ++ ['\n'] := by
  constructor
  · rw [Config.PrintUsage, usageLoop_eq]
    rfl
  · intro ci
    cases h : ci.Hasval <;> simp [usageLine, optionText, h]

/-- C17, as stated, fails: the description of the option `port` starts after 23
characters, that of an option with the name `configuration-directory` after 34;
the token is padded up to 20 characters but is not cut when it is longer. -/
theorem PrintUsage_column_counterexample :
    ¬ (∀ a b : ConfigItem, a.Arg ≠ [] → b.Arg ≠ [] → descrColumn a = descrColumn b) := by
  intro h
  exact absurd (h portItem longItem (by decide) (by decide)) (by decide)

/-- C17, amended: on the line of a descriptor the description part ` : ...` starts
after three blanks and the token padded to at least 20 characters, that is after
`3 + max 20 n` characters for a token of `n` characters, where `n` is 3 plus the
length of the flag, plus 3 and the length of the name when the descriptor takes a
value. The column is the same, 23, for all tokens of at most 20 characters. -/
theorem PrintUsage_column (ci : ConfigItem) :
    usageLine ci
        = ("   ".toList ++ padRight 20 (optionText ci))
            ++ (" : ".toList ++ ci.Descr ++ "\n".toList)
      ∧ descrColumn ci = 3 + max 20 (optionText ci).length
      ∧ (optionText ci).length
          = (if ci.Hasval = true then 6 + ci.Arg.length + ci.Name.length
             else 3 + ci.Arg.length)
      ∧ ((optionText ci).length ≤ 20 → descrColumn ci = 23) := by
  have hcol : descrColumn ci = 3 + max 20 (optionText ci).length := by
    simp only [descrColumn, List.length_append, length_padRight]
    rfl
  refine ⟨by simp [usageLine], hcol, ?_, ?_⟩
  · cases h : ci.Hasval
    · simp [optionText, h]; omega
    · simp [optionText, h]; omega
  · intro hle
    rw [hcol]
    omega

/-! ## The argument reader -/

theorem GoMap.get_of_has_false (m : GoMap) (k : Str) (h : m.has k = false) : m.get k = [] := by
  induction m with
  | nil => rfl
  | cons e rest ih =>
    obtain ⟨k', v'⟩ := e
    by_cases hk : k' = k
    · simp [GoMap.has, hk] at h
    · simp only [GoMap.has, hk, if_false] at h
      simp [GoMap.get, hk, ih h]

theorem GoMap.has_eq_false_iff (m : GoMap) (k : Str) : m.has k = false ↔ k ∉ m.keys := by
  rw [← GoMap.has_iff_mem_keys]
  simp

theorem strLoop_eq (f : FlagSet) (ptrs combo : GoMap) :
    strLoop f ptrs combo = derefLoop f.strVal ptrs combo := by
  induction ptrs generalizing combo with
  | nil => rfl
  | cons e rest ih => obtain ⟨k, v⟩ := e; simp [strLoop, derefLoop, ih]

theorem boolLoop_eq (f : FlagSet) (ptrs combo : GoMap) :
    boolLoop f ptrs combo
      = derefLoop (fun v => if f.boolVal v = true then "yes".toList else []) ptrs combo := by
  induction ptrs generalizing combo with
  | nil => rfl
  | cons e rest ih => obtain ⟨k, v⟩ := e; simp [boolLoop, derefLoop, ih]

theorem derefLoop_mem_keys (g : Str → Str) (ptrs combo : GoMap) (n : Str) :
    n ∈ (derefLoop g ptrs combo).keys ↔ n ∈ combo.keys ∨ n ∈ ptrs.keys := by
  induction ptrs generalizing combo with
  | nil => simp [derefLoop, GoMap.keys]
  | cons e rest ih =>
    obtain ⟨k, v⟩ := e
    simp only [derefLoop]
    rw [ih, GoMap.mem_keys_set]
    simp only [GoMap.keys, List.map_cons, List.mem_cons]
    tauto

theorem derefLoop_nodup_keys (g : Str → Str) (ptrs combo : GoMap) (h : combo.keys.Nodup) :
    (derefLoop g ptrs combo).keys.Nodup := by
  induction ptrs generalizing combo with
  | nil => exact h
  | cons e rest ih =>
    obtain ⟨k, v⟩ := e
    exact ih _ (GoMap.nodup_keys_set _ _ _ h)

theorem derefLoop_get (g : Str → Str) (ptrs combo : GoMap) (n : Str)
    (hnd : ptrs.keys.Nodup) :
    (derefLoop g ptrs combo).get n
      = if ptrs.has n = true then g (ptrs.get n) else combo.get n := by
  induction ptrs generalizing combo with
  | nil => simp [derefLoop, GoMap.has]
  | cons e rest ih =>
    obtain ⟨k, v⟩ := e
    simp only [GoMap.keys, List.map_cons, List.nodup_cons] at hnd
    obtain ⟨hk, hrest⟩ := hnd
    simp only [derefLoop]
    rw [ih _ hrest]
    by_cases hkn : k = n
    · subst hkn
      have hno : GoMap.has rest k = false := (GoMap.has_eq_false_iff rest k).2 hk
      simp [GoMap.has, GoMap.get, hno, GoMap.get_set_same]
    · simp [GoMap.has, GoMap.get, hkn, GoMap.get_set_other _ _ _ _ hkn]

theorem ptrLoop_append (hv : Bool) (xs ys : List ConfigItem) (m : GoMap) :
    ptrLoop hv (xs ++ ys) m = ptrLoop hv ys (ptrLoop hv xs m) := by
  induction xs generalizing m with
  | nil => rfl
  | cons x xs ih => simp [ptrLoop, ih]

theorem ptrLoop_mem_keys (hv : Bool) (items : List ConfigItem) (m : GoMap) (k : Str) :
    k ∈ (ptrLoop hv items m).keys
      ↔ k ∈ m.keys ∨ ∃ d ∈ items, d.Hasval = hv ∧ d.Name = k := by
  induction items generalizing m with
  | nil => simp [ptrLoop]
  | cons x xs ih =>
    simp only [ptrLoop]
    rw [ih]
    by_cases hx : x.Hasval = hv
    · simp only [hx, if_true, GoMap.mem_keys_set, List.mem_cons, exists_eq_or_imp, true_and]
      constructor
      · rintro ((h | h) | h)
        · exact Or.inl h
        · exact Or.inr (Or.inl h.symm)
        · exact Or.inr (Or.inr h)
      · rintro (h | h | h)
        · exact Or.inl (Or.inl h)
        · exact Or.inl (Or.inr h.symm)
        · exact Or.inr h
    · simp only [hx, if_false, List.mem_cons, exists_eq_or_imp, false_and, false_or]

theorem ptrLoop_nodup_keys (hv : Bool) (items : List ConfigItem) (m : GoMap)
    (h : m.keys.Nodup) : (ptrLoop hv items m).keys.Nodup := by
  induction items generalizing m with
  | nil => exact h
  | cons x xs ih =>
    simp only [ptrLoop]
    by_cases hx : x.Hasval = hv
    · simp only [hx, if_true]
      exact ih _ (GoMap.nodup_keys_set _ _ _ h)
    · simp only [hx, if_false]
      exact ih _ h

theorem ptrLoop_get_absent (hv : Bool) (items : List ConfigItem) (m : GoMap) (n : Str)
    (h : ∀ x ∈ items, x.Hasval = hv → x.Name ≠ n) :
    (ptrLoop hv items m).get n = m.get n := by
  induction items generalizing m with
  | nil => rfl
  | cons x xs ih =>
    have hxs : ∀ y ∈ xs, y.Hasval = hv → y.Name ≠ n :=
      fun y hy => h y (List.mem_cons_of_mem _ hy)
    simp only [ptrLoop]
    rw [ih _ hxs]
    by_cases hx : x.Hasval = hv
    · simp only [hx, if_true]
      exact GoMap.get_set_other _ _ _ _ (h x (List.mem_cons_self _ _) hx)
    · simp only [hx, if_false]

theorem ptrLoop_get_last (hv : Bool) (pre post : List ConfigItem) (d : ConfigItem)
    (m : GoMap) (hd : d.Hasval = hv) (h : ∀ x ∈ post, x.Hasval = hv → x.Name ≠ d.Name) :
    (ptrLoop hv (pre ++ d :: post) m).get d.Name = d.Arg := by
  rw [ptrLoop_append]
  simp only [ptrLoop, hd, if_true]
  rw [ptrLoop_get_absent hv post _ _ h, GoMap.get_set_same]

theorem ptrLoop_get_of_nodup (hv : Bool) (items : List ConfigItem) (d : ConfigItem)
    (hnames : (items.map ConfigItem.Name).Nodup) (hd : d ∈ items) (hdv : d.Hasval = hv) :
    (ptrLoop hv items GoMap.empty).get d.Name = d.Arg := by
  obtain ⟨pre, post, he⟩ := List.append_of_mem hd
  rw [he]
  apply ptrLoop_get_last hv pre post d _ hdv
  intro x hx _ hxn
  rw [he] at hnames
  simp only [List.map_append, List.map_cons] at hnames
  have h2 := (List.nodup_append.1 hnames).2.1
  have h3 := (List.nodup_cons.1 h2).1
  exact h3 (hxn ▸ List.mem_map_of_mem _ hx)

theorem registerLoop_some (items : List ConfigItem) (a b a' b' : GoMap) (f f' : FlagSet)
    (h : registerLoop items a b f = some (a', b', f')) :
    a' = ptrLoop true items a ∧ b' = ptrLoop false items b := by
  induction items generalizing a b f with
  | nil =>
    simp only [registerLoop, Option.some.injEq, Prod.mk.injEq] at h
    exact ⟨h.1.symm, h.2.1.symm⟩
  | cons ci rest ih =>
    cases hv : ci.Hasval with
    | true =>
      simp only [registerLoop, hv, if_true] at h
      cases hdef : f.define ci.Arg (FlagVal.str []) with
      | none => simp [hdef] at h
      | some f1 =>
        simp only [hdef] at h
        simpa [ptrLoop, hv] using ih _ _ _ h
    | false =>
      simp only [registerLoop, hv] at h
      cases hdef : f.define ci.Arg (FlagVal.bool false) with
      | none => simp [hdef] at h
      | some f1 =>
        simp only [hdef] at h
        simpa [ptrLoop, hv] using ih _ _ _ h

theorem FlagSet.find_append (f : FlagSet) (n name : Str) (v : FlagVal) :
    FlagSet.find (f ++ [(n, v)]) name
      = match f.find name with
        | some w => some w
        | none => if n = name then some v else none := by
  induction f with
  | nil => simp [FlagSet.find]
  | cons e rest ih =>
    obtain ⟨n', v'⟩ := e
    by_cases h : n' = name
    · simp [FlagSet.find, h]
    · simp [FlagSet.find, h, ih]

theorem FlagSet.define_some (f f1 : FlagSet) (name : Str) (d : FlagVal)
    (h : f.define name d = some f1) : f.find name = none ∧ f1 = f ++ [(name, d)] := by
  unfold FlagSet.define at h
  split at h
  · cases h
  · split at h
    · cases h
    · split at h
      · cases h
      · rename_i _ _ hfind
        simp only [Option.some.injEq] at h
        refine ⟨?_, h.symm⟩
        cases hf : f.find name with
        | none => rfl
        | some w => simp [hf] at hfind

theorem FlagSet.define_find_self (f f1 : FlagSet) (name : Str) (d : FlagVal)
    (h : f.define name d = some f1) : f1.find name = some d := by
  obtain ⟨h1, h2⟩ := FlagSet.define_some f f1 name d h
  rw [h2, FlagSet.find_append, h1]
  simp

theorem FlagSet.define_find_kept (f f1 : FlagSet) (name n : Str) (d v : FlagVal)
    (h : f.define name d = some f1) (hn : f.find n = some v) : f1.find n = some v := by
  obtain ⟨_, h2⟩ := FlagSet.define_some f f1 name d h
  rw [h2, FlagSet.find_append, hn]

theorem registerLoop_find_kept (items : List ConfigItem) (a b a' b' : GoMap)
    (f f' : FlagSet) (n : Str) (v : FlagVal)
    (h : registerLoop items a b f = some (a', b', f')) (hn : f.find n = some v) :
    f'.find n = some v := by
  induction items generalizing a b f with
  | nil =>
    simp only [registerLoop, Option.some.injEq, Prod.mk.injEq] at h
    rw [← h.2.2]
    exact hn
  | cons ci rest ih =>
    cases hv : ci.Hasval with
    | true =>
      simp only [registerLoop, hv, if_true] at h
      cases hdef : f.define ci.Arg (FlagVal.str []) with
      | none => simp [hdef] at h
      | some f1 =>
        simp only [hdef] at h
        exact ih _ _ _ h (FlagSet.define_find_kept f f1 _ n _ v hdef hn)
    | false =>
      simp only [registerLoop, hv] at h
      cases hdef : f.define ci.Arg (FlagVal.bool false) with
      | none => simp [hdef] at h
      | some f1 =>
        simp only [hdef] at h
        exact ih _ _ _ h (FlagSet.define_find_kept f f1 _ n _ v hdef hn)

theorem registerLoop_find_default (items : List ConfigItem) (a b a' b' : GoMap)
    (f f' : FlagSet) (h : registerLoop items a b f = some (a', b', f'))
    (d : ConfigItem) (hd : d ∈ items) :
    f'.find d.Arg = some (if d.Hasval = true then FlagVal.str [] else FlagVal.bool false) := by
  induction items generalizing a b f with
  | nil => cases hd
  | cons ci rest ih =>
    cases hv : ci.Hasval with
    | true =>
      simp only [registerLoop, hv, if_true] at h
      cases hdef : f.define ci.Arg (FlagVal.str []) with
      | none => simp [hdef] at h
      | some f1 =>
        simp only [hdef] at h
        rcases List.mem_cons.1 hd with hdc | hdr
        · subst hdc
          rw [hv]
          exact registerLoop_find_kept rest _ _ _ _ f1 f' _ _ h
            (FlagSet.define_find_self f f1 _ _ hdef)
        · exact ih _ _ _ h hdr
    | false =>
      simp only [registerLoop, hv] at h
      cases hdef : f.define ci.Arg (FlagVal.bool false) with
      | none => simp [hdef] at h
      | some f1 =>
        simp only [hdef] at h
        rcases List.mem_cons.1 hd with hdc | hdr
        · subst hdc
          rw [hv]
          exact registerLoop_find_kept rest _ _ _ _ f1 f' _ _ h
            (FlagSet.define_find_self f f1 _ _ hdef)
        · exact ih _ _ _ h hdr

theorem readArgs_eq (cl : FlagSet) (argv : List Str) (cfg : Config) (args boolargs : GoMap)
    (f parsed : FlagSet)
    (hreg : registerLoop cfg.Items GoMap.empty GoMap.empty cl = some (args, boolargs, f))
    (hparse : flagParse f argv = some parsed) :
    cfg.readArgs cl argv
      = some (derefLoop parsed.strVal (ptrLoop true cfg.Items GoMap.empty)
          (derefLoop (fun v => if parsed.boolVal v = true then "yes".toList else [])
            (ptrLoop false cfg.Items GoMap.empty) GoMap.empty)) := by
  obtain ⟨h1, h2⟩ := registerLoop_some _ _ _ _ _ _ _ hreg
  simp only [Config.readArgs, hreg, hparse, strLoop_eq, boolLoop_eq, h1, h2]

theorem readArgs_some (cl : FlagSet) (argv : List Str) (cfg : Config) (m : GoMap)
    (h : cfg.readArgs cl argv = some m) :
    ∃ args boolargs f parsed,
      registerLoop cfg.Items GoMap.empty GoMap.empty cl = some (args, boolargs, f)
        ∧ flagParse f argv = some parsed := by
  unfold Config.readArgs at h
  cases hreg : registerLoop cfg.Items GoMap.empty GoMap.empty cl with
  | none => simp [hreg] at h
  | some r =>
    obtain ⟨args, boolargs, f⟩ := r
    simp only [hreg] at h
    cases hp : flagParse f argv with
    | none => simp [hp] at h
    | some parsed => exact ⟨args, boolargs, f, parsed, rfl, hp⟩

/-- The value that `readArgs` stores for a name, read off the two pointer maps. -/
theorem readArgs_get (parsed : FlagSet) (items : List ConfigItem) (n : Str) :
    (derefLoop parsed.strVal (ptrLoop true items GoMap.empty)
        (derefLoop (fun v => if parsed.boolVal v = true then "yes".toList else [])
          (ptrLoop false items GoMap.empty) GoMap.empty)).get n
      = if (ptrLoop true items GoMap.empty).has n = true then
          parsed.strVal ((ptrLoop true items GoMap.empty).get n)
        else if (ptrLoop false items GoMap.empty).has n = true then
          (if parsed.boolVal ((ptrLoop false items GoMap.empty).get n) = true
            then "yes".toList else [])
        else [] := by
  rw [derefLoop_get _ _ _ _ (ptrLoop_nodup_keys true items _ GoMap.nodup_keys_empty),
    derefLoop_get _ _ _ _ (ptrLoop_nodup_keys false items _ GoMap.nodup_keys_empty)]
  rfl

theorem readArgs_mem_keys (parsed : FlagSet) (items : List ConfigItem) (n : Str) :
    n ∈ (derefLoop parsed.strVal (ptrLoop true items GoMap.empty)
        (derefLoop (fun v => if parsed.boolVal v = true then "yes".toList else [])
          (ptrLoop false items GoMap.empty) GoMap.empty)).keys
      ↔ ∃ d ∈ items, d.Name = n := by
  rw [derefLoop_mem_keys, derefLoop_mem_keys, ptrLoop_mem_keys, ptrLoop_mem_keys]
  simp only [GoMap.empty, GoMap.keys, List.map_nil, List.not_mem_nil, false_or]
  constructor
  · rintro (⟨d, hd, _, hn⟩ | ⟨d, hd, _, hn⟩)
    · exact ⟨d, hd, hn⟩
    · exact ⟨d, hd, hn⟩
  · rintro ⟨d, hd, hn⟩
    cases hv : d.Hasval
    · exact Or.inl ⟨d, hd, hv, hn⟩
    · exact Or.inr ⟨d, hd, hv, hn⟩

/-- C14 (arguments mapping): when the names of the schema are pairwise distinct,
the flags have been defined (which the flag package refuses for a repeated flag)
and `flag.Parse` has left the values `parsed`, `readArgs` returns a mapping keyed
by descriptor name with exactly one entry per descriptor. A descriptor that takes
a value maps to the string of its flag, a presence descriptor to `yes` when its
flag is true and to the empty string otherwise; with no argument on the command
line every entry is the empty string. -/
theorem readArgs_entries (cl : FlagSet) (argv : List Str) (cfg : Config)
    (args boolargs : GoMap) (f parsed : FlagSet)
    (hnames : (cfg.Items.map ConfigItem.Name).Nodup)
    (hreg : registerLoop cfg.Items GoMap.empty GoMap.empty cl = some (args, boolargs, f))
    (hparse : flagParse f argv = some parsed) :
    ∃ m, cfg.readArgs cl argv = some m
      ∧ m.keys.Nodup ∧ m.len = cfg.Items.length
      ∧ (∀ k, m.has k = true ↔ ∃ d ∈ cfg.Items, d.Name = k)
      ∧ (∀ d ∈ cfg.Items, m.get d.Name
          = if d.Hasval = true then parsed.strVal d.Arg
            else if parsed.boolVal d.Arg = true then "yes".toList else [])
      ∧ (argv = [] → ∀ d ∈ cfg.Items, m.get d.Name = []) := by
  have hval : ∀ d ∈ cfg.Items,
      (derefLoop parsed.strVal (ptrLoop true cfg.Items GoMap.empty)
        (derefLoop (fun v => if parsed.boolVal v = true then "yes".toList else [])
          (ptrLoop false cfg.Items GoMap.empty) GoMap.empty)).get d.Name
        = if d.Hasval = true then parsed.strVal d.Arg
          else if parsed.boolVal d.Arg = true then "yes".toList else [] := by
    intro d hd
    rw [readArgs_get]
    cases hv : d.Hasval with
    | true =>
      have hhas : (ptrLoop true cfg.Items GoMap.empty).has d.Name = true := by
        rw [GoMap.has_iff_mem_keys, ptrLoop_mem_keys]
        exact Or.inr ⟨d, hd, hv, rfl⟩
      rw [hhas, ptrLoop_get_of_nodup true cfg.Items d hnames hd hv]
      simp
    | false =>
      have hno : ¬ (ptrLoop true cfg.Items GoMap.empty).has d.Name = true := by
        rw [GoMap.has_iff_mem_keys, ptrLoop_mem_keys]
        rintro (h | ⟨d', hd', hv', hn'⟩)
        · cases h
        · have heq : d' = d := List.inj_on_of_nodup_map hnames hd' hd hn'
          rw [heq, hv] at hv'
          cases hv'
      have hhas : (ptrLoop false cfg.Items GoMap.empty).has d.Name = true := by
        rw [GoMap.has_iff_mem_keys, ptrLoop_mem_keys]
        exact Or.inr ⟨d, hd, hv, rfl⟩
      rw [if_neg hno, hhas, ptrLoop_get_of_nodup false cfg.Items d hnames hd hv]
      simp
  refine ⟨_, readArgs_eq cl argv cfg args boolargs f parsed hreg hparse, ?_, ?_, ?_, hval, ?_⟩
  · exact derefLoop_nodup_keys _ _ _ (derefLoop_nodup_keys _ _ _ GoMap.nodup_keys_empty)
  · have hperm : List.Perm
        (derefLoop parsed.strVal (ptrLoop true cfg.Items GoMap.empty)
          (derefLoop (fun v => if parsed.boolVal v = true then "yes".toList else [])
            (ptrLoop false cfg.Items GoMap.empty) GoMap.empty)).keys
        (cfg.Items.map ConfigItem.Name) := by
      apply (List.perm_ext_iff_of_nodup
        (derefLoop_nodup_keys _ _ _ (derefLoop_nodup_keys _ _ _ GoMap.nodup_keys_empty))
        hnames).2
      intro k
      rw [readArgs_mem_keys]
      simp
    have := hperm.length_eq
    simpa [GoMap.len, GoMap.keys] using this
  · intro k
    rw [GoMap.has_iff_mem_keys, readArgs_mem_keys]
  · intro hargv d hd
    rw [hval d hd]
    have hp : parsed = f := by
      rw [hargv] at hparse
      simp only [flagParse, parseLoop, Option.some.injEq] at hparse
      exact hparse.symm
    have hfind := registerLoop_find_default _ _ _ _ _ _ _ hreg d hd
    rw [hp]
    cases hv : d.Hasval <;> simp [FlagSet.strVal, FlagSet.boolVal, hfind, hv]

/-- Scenario of C14: with the options `port` (flag `p`, takes a value) and
`verbose` (flag `v`, presence), the command line `-v` gives `verbose` the value
`yes` and `port` the empty string. -/
theorem readArgs_entries_witness :
    (∃ m, Config.readArgs [] ["-v".toList] { Items := [portItem, verboseItem] } = some m
      ∧ m.keys.Nodup ∧ m.len = [portItem, verboseItem].length
      ∧ (∀ k, m.has k = true ↔ ∃ d ∈ [portItem, verboseItem], d.Name = k)
      ∧ (∀ d ∈ [portItem, verboseItem], m.get d.Name
          = if d.Hasval = true then
              FlagSet.strVal [("p".toList, FlagVal.str []), ("v".toList, FlagVal.bool true)]
                d.Arg
            else if FlagSet.boolVal
                [("p".toList, FlagVal.str []), ("v".toList, FlagVal.bool true)] d.Arg = true
              then "yes".toList else [])
      ∧ (["-v".toList] = [] → ∀ d ∈ [portItem, verboseItem], m.get d.Name = []))
    ∧ Config.readArgs [] ["-v".toList] { Items := [portItem, verboseItem] }
        = some [("verbose".toList, "yes".toList), ("port".toList, [])]
    ∧ Config.readArgs [] ["-p".toList, "7000".toList] { Items := [portItem, verboseItem] }
        = some [("verbose".toList, []), ("port".toList, "7000".toList)] :=
  ⟨readArgs_entries [] ["-v".toList] { Items := [portItem, verboseItem] }
      [("port".toList, "p".toList)] [("verbose".toList, "v".toList)]
      [("p".toList, FlagVal.str []), ("v".toList, FlagVal.bool false)]
      [("p".toList, FlagVal.str []), ("v".toList, FlagVal.bool true)]
      (by decide) rfl rfl,
    by decide, by decide⟩

/-! ## The entry point -/

theorem withAutoOptions_items (cfg : Config) (cfgname : Str) :
    (withAutoOptions cfg cfgname).Items
      = cfg.Items ++ helpItem :: (if cfgname = [] then [] else [cfgpathItem cfgname]) := by
  cases cfgname with
  | nil => simp [withAutoOptions, Config.AddOption, helpItem]
  | cons c rest => simp [withAutoOptions, Config.AddOption, helpItem, cfgpathItem]

theorem Read_fst (tbl : Char → Char) (fs : FileSystem) (cl : FlagSet) (argv : List Str)
    (cfg : Config) (cfgname : Str) :
    (cfg.Read tbl fs cl argv cfgname).1 = withAutoOptions cfg cfgname := by
  unfold Config.Read
  simp only
  split
  · rfl
  · split
    · split <;> rfl
    · rfl

theorem Read_of_args (tbl : Char → Char) (fs : FileSystem) (cl : FlagSet) (argv : List Str)
    (cfg : Config) (cfgname : Str) (argmap : GoMap)
    (hargs : (withAutoOptions cfg cfgname).readArgs cl argv = some argmap) :
    (cfg.Read tbl fs cl argv cfgname).2
      = if cfgname = [] then
          some (some ((withAutoOptions cfg cfgname).mergeItems argmap GoMap.empty), none)
        else
          match readConfigFile tbl fs (effectivePath argmap cfgname) with
          | none => none
          | some (_, some err) => some (none, some err)
          | some (confmap, none) =>
            some (some ((withAutoOptions cfg cfgname).mergeItems argmap confmap), none) := by
  unfold Config.Read
  simp only [hargs]
  cases cfgname with
  | nil => simp
  | cons c rest =>
    simp only [List.length_cons, Nat.zero_lt_succ, if_true]
    split <;> simp_all

theorem Read_of_no_args (tbl : Char → Char) (fs : FileSystem) (cl : FlagSet)
    (argv : List Str) (cfg : Config) (cfgname : Str)
    (hargs : (withAutoOptions cfg cfgname).readArgs cl argv = none) :
    (cfg.Read tbl fs cl argv cfgname).2 = none := by
  unfold Config.Read
  simp only [hargs]

theorem readConfigFile_error_iff (tbl : Char → Char) (fs : FileSystem) (filename : Str) :
    (∃ m err, readConfigFile tbl fs filename = some (m, some err)) ↔ fs filename = none := by
  unfold readConfigFile
  cases hf : fs filename with
  | none => simp
  | some file =>
    simp only
    cases hs : scanLoop tbl file.readErr (rawLines file.data) GoMap.empty with
    | mk c b => cases b <;> simp

/-- C13 (schema effect of `Read`): after the call the list of descriptors is the
list before the call, followed by the descriptor `help` (flag `h`, presence,
default `no`) and, exactly when a file name was given, by the descriptor `cfgpath`
(flag `c`, takes a value, default the file name). This is so whatever the call
returns, and also when it does not return. -/
theorem Read_schema_effect (tbl : Char → Char) (fs : FileSystem) (cl : FlagSet)
    (argv : List Str) (cfg : Config) (cfgname : Str) :
    (cfg.Read tbl fs cl argv cfgname).1.Items
        = cfg.Items
          ++ [{ Name := "help".toList, Arg := "h".toList, Hasval := false,
                Descr := "Output usage information to the console".toList,
                Dflt := "no".toList }]
          ++ (if cfgname ≠ [] then
                [{ Name := "cfgpath".toList, Arg := "c".toList, Hasval := true,
                   Descr := "Path to configuration file".toList, Dflt := cfgname }]
              else [])
      ∧ (cfg.Read tbl fs cl argv cfgname).1.Items.take cfg.Items.length = cfg.Items := by
  rw [Read_fst, withAutoOptions_items]
  constructor
  · cases cfgname <;> simp [helpItem, cfgpathItem]
  · simp

/-- C11, as stated, fails. With an empty schema, the file name `missing.conf` and
a file system in which nothing can be opened, the command line `-x` makes
`flag.Parse` end the process, and a schema that already uses the flag `h` makes
the flag package panic: in both cases `Read` returns no error, although the file
name is not empty and the file cannot be opened. -/
theorem Read_error_counterexample :
    (Config.Read id noFiles [] ["-x".toList] { Items := [] } "missing.conf".toList).2 = none
      ∧ (Config.Read id noFiles [] []
          { Items := [{ Name := "host".toList, Arg := "h".toList, Hasval := true,
                        Descr := "Host name".toList, Dflt := [] }] }
          "missing.conf".toList).2 = none
      ∧ "missing.conf".toList ≠ []
      ∧ ∀ path : Str, noFiles path = none := by
  refine ⟨by decide, by decide, by decide, fun _ => rfl⟩

/-- C11, amended: when reading the arguments returns (the flag package neither
panics nor ends the process), `Read` returns a non-nil error exactly when the file
name is not empty and the effective path cannot be opened; the mapping returned
with an error is nil. When the file name is empty no file is opened, the result
being the same for every file system, and a mapping is returned without error. -/
theorem Read_error_iff (tbl : Char → Char) (fs : FileSystem) (cl : FlagSet)
    (argv : List Str) (cfg : Config) (cfgname : Str) (argmap : GoMap)
    (hargs : (withAutoOptions cfg cfgname).readArgs cl argv = some argmap) :
    ((∃ m err, (cfg.Read tbl fs cl argv cfgname).2 = some (m, some err))
        ↔ (cfgname ≠ [] ∧ fs (effectivePath argmap cfgname) = none))
      ∧ (∀ m err, (cfg.Read tbl fs cl argv cfgname).2 = some (m, some err) → m = none)
      ∧ (cfgname = [] →
          (∃ m, (cfg.Read tbl fs cl argv cfgname).2 = some (some m, none))
            ∧ ∀ fs' : FileSystem,
                cfg.Read tbl fs' cl argv cfgname = cfg.Read tbl fs cl argv cfgname) := by
  have hres := Read_of_args tbl fs cl argv cfg cfgname argmap hargs
  refine ⟨?_, ?_, ?_⟩
  · rw [hres]
    by_cases hne : cfgname = []
    · simp [hne]
    · simp only [hne, if_false, ne_eq, not_false_eq_true, true_and]
      rw [← readConfigFile_error_iff tbl fs (effectivePath argmap cfgname)]
      cases hr : readConfigFile tbl fs (effectivePath argmap cfgname) with
      | none => simp
      | some p =>
        obtain ⟨c, e⟩ := p
        cases e <;> simp
  · intro m err h
    rw [hres] at h
    by_cases hne : cfgname = []
    · simp [hne] at h
    · simp only [hne, if_false] at h
      cases hr : readConfigFile tbl fs (effectivePath argmap cfgname) with
      | none => simp [hr] at h
      | some p =>
        obtain ⟨c, e⟩ := p
        cases e with
        | none => simp [hr] at h
        | some e' =>
          simp only [hr, Option.some.injEq, Prod.mk.injEq] at h
          exact h.1.symm
  · intro hempty
    refine ⟨⟨_, by rw [hres, if_pos hempty]⟩, fun fs' => ?_⟩
    apply Prod.ext
    · rw [Read_fst, Read_fst]
    · rw [hres, Read_of_args tbl fs' cl argv cfg cfgname argmap hargs, if_pos hempty,
        if_pos hempty]

/-- Scenario of C11: the file `missing.conf` cannot be opened, the arguments are
read, and `Read` returns a nil mapping with the error. -/
theorem Read_error_iff_witness :
    (((∃ m err, (Config.Read id noFiles [] ["-p".toList, "7000".toList] portSchema
            "missing.conf".toList).2 = some (m, some err))
        ↔ ("missing.conf".toList ≠ []
            ∧ noFiles (effectivePath
                [("help".toList, []), ("port".toList, "7000".toList),
                  ("cfgpath".toList, [])] "missing.conf".toList) = none))
      ∧ (∀ m err, (Config.Read id noFiles [] ["-p".toList, "7000".toList] portSchema
            "missing.conf".toList).2 = some (m, some err) → m = none)
      ∧ ("missing.conf".toList = [] →
          (∃ m, (Config.Read id noFiles [] ["-p".toList, "7000".toList] portSchema
              "missing.conf".toList).2 = some (some m, none))
            ∧ ∀ fs' : FileSystem,
                Config.Read id fs' [] ["-p".toList, "7000".toList] portSchema
                    "missing.conf".toList
                  = Config.Read id noFiles [] ["-p".toList, "7000".toList] portSchema
                    "missing.conf".toList))
    ∧ (Config.Read id noFiles [] ["-p".toList, "7000".toList] portSchema
          "missing.conf".toList).2 = some (none, some openErrorText)
    ∧ (Config.Read id noFiles [] ["-p".toList, "7000".toList] portSchema []).2
        = some (some [("port".toList, "7000".toList), ("help".toList, "no".toList)], none) :=
  ⟨Read_error_iff id noFiles [] ["-p".toList, "7000".toList] portSchema
      "missing.conf".toList
      [("help".toList, []), ("port".toList, "7000".toList), ("cfgpath".toList, [])]
      (by decide),
    by decide, by decide⟩

theorem readArgs_cfgpath (cl : FlagSet) (argv : List Str) (cfg : Config) (cfgname : Str)
    (args boolargs : GoMap) (f parsed : FlagSet) (hne : cfgname ≠ [])
    (hreg : registerLoop (withAutoOptions cfg cfgname).Items GoMap.empty GoMap.empty cl
      = some (args, boolargs, f))
    (hparse : flagParse f argv = some parsed) :
    ∃ argmap, (withAutoOptions cfg cfgname).readArgs cl argv = some argmap
      ∧ argmap.get "cfgpath".toList = parsed.strVal "c".toList := by
  refine ⟨_, readArgs_eq cl argv _ args boolargs f parsed hreg hparse, ?_⟩
  rw [readArgs_get]
  have hitems : (withAutoOptions cfg cfgname).Items
      = (cfg.Items ++ [helpItem]) ++ cfgpathItem cfgname :: [] := by
    rw [withAutoOptions_items, if_neg hne]
    simp
  have hhas : (ptrLoop true (withAutoOptions cfg cfgname).Items GoMap.empty).has
      "cfgpath".toList = true := by
    rw [GoMap.has_iff_mem_keys, ptrLoop_mem_keys, hitems]
    exact Or.inr ⟨cfgpathItem cfgname, by simp, rfl, rfl⟩
  have hget : (ptrLoop true (withAutoOptions cfg cfgname).Items GoMap.empty).get
      "cfgpath".toList = "c".toList := by
    rw [hitems]
    exact ptrLoop_get_last true (cfg.Items ++ [helpItem]) [] (cfgpathItem cfgname)
      GoMap.empty rfl (by simp)
  rw [hhas, hget]
  simp

theorem mergeItems_cfgpath (cfg : Config) (cfgname : Str) (argmap confmap : GoMap)
    (hne : cfgname ≠ []) :
    ((withAutoOptions cfg cfgname).mergeItems argmap confmap).get "cfgpath".toList
      = merge (argmap.get "cfgpath".toList) (confmap.get "cfgpath".toList) cfgname := by
  have hitems : (withAutoOptions cfg cfgname).Items
      = (cfg.Items ++ [helpItem]) ++ cfgpathItem cfgname :: [] := by
    rw [withAutoOptions_items, if_neg hne]
    simp
  rw [Config.mergeItems, hitems]
  exact mergeLoop_get_last argmap confmap (cfg.Items ++ [helpItem]) []
    (cfgpathItem cfgname) GoMap.empty (by simp)

theorem mergeItems_help (cfg : Config) (cfgname : Str) (argmap confmap : GoMap) :
    ((withAutoOptions cfg cfgname).mergeItems argmap confmap).get "help".toList
      = merge (argmap.get "help".toList) (confmap.get "help".toList) "no".toList := by
  rw [Config.mergeItems, withAutoOptions_items]
  apply mergeLoop_get_last argmap confmap cfg.Items _ helpItem GoMap.empty
  intro x hx
  by_cases hne : cfgname = []
  · simp [hne] at hx
  · simp only [hne, if_false, List.mem_singleton] at hx
    rw [hx]
    show "cfgpath".toList ≠ "help".toList
    decide

theorem Read_same_file (tbl : Char → Char) (fs fs' : FileSystem) (cl : FlagSet)
    (argv : List Str) (cfg : Config) (cfgname : Str) (argmap : GoMap)
    (hargs : (withAutoOptions cfg cfgname).readArgs cl argv = some argmap)
    (hsame : fs' (effectivePath argmap cfgname) = fs (effectivePath argmap cfgname)) :
    cfg.Read tbl fs' cl argv cfgname = cfg.Read tbl fs cl argv cfgname := by
  apply Prod.ext
  · rw [Read_fst, Read_fst]
  · rw [Read_of_args tbl fs cl argv cfg cfgname argmap hargs,
      Read_of_args tbl fs' cl argv cfg cfgname argmap hargs]
    have : readConfigFile tbl fs' (effectivePath argmap cfgname)
        = readConfigFile tbl fs (effectivePath argmap cfgname) := by
      unfold readConfigFile
      rw [hsame]
    rw [this]

/-- C12 (effective path and result of `Read`): once the flags are defined and
parsed, the file that `Read` parses for a non-empty file name is the value of the
flag `c` when that value is not empty and the file name otherwise, and no other
path matters for the result. On success the returned mapping is `mergeItems` of
the arguments mapping, the mapping parsed from that file (the empty mapping when
the file name is empty) and the schema extended with `help` and `cfgpath`. -/
theorem Read_effective_path (tbl : Char → Char) (fs : FileSystem) (cl : FlagSet)
    (argv : List Str) (cfg : Config) (cfgname : Str) (args boolargs : GoMap)
    (f parsed : FlagSet)
    (hreg : registerLoop (withAutoOptions cfg cfgname).Items GoMap.empty GoMap.empty cl
      = some (args, boolargs, f))
    (hparse : flagParse f argv = some parsed) :
    ∃ argmap, (withAutoOptions cfg cfgname).readArgs cl argv = some argmap
      ∧ (cfgname ≠ [] →
          (cfg.Read tbl fs cl argv cfgname).2
              = (match readConfigFile tbl fs
                    (if parsed.strVal "c".toList ≠ [] then parsed.strVal "c".toList
                     else cfgname) with
                 | none => none
                 | some (_, some err) => some (none, some err)
                 | some (confmap, none) =>
                   some (some ((withAutoOptions cfg cfgname).mergeItems argmap confmap),
                     none))
            ∧ ∀ fs' : FileSystem,
                fs' (if parsed.strVal "c".toList ≠ [] then parsed.strVal "c".toList
                     else cfgname)
                  = fs (if parsed.strVal "c".toList ≠ [] then parsed.strVal "c".toList
                        else cfgname) →
                cfg.Read tbl fs' cl argv cfgname = cfg.Read tbl fs cl argv cfgname)
      ∧ (cfgname = [] →
          (cfg.Read tbl fs cl argv cfgname).2
            = some (some ((withAutoOptions cfg cfgname).mergeItems argmap GoMap.empty),
                none))
      ∧ (withAutoOptions cfg cfgname).Items
          = cfg.Items ++ helpItem :: (if cfgname = [] then [] else [cfgpathItem cfgname]) := by
  have hargs := readArgs_eq cl argv _ args boolargs f parsed hreg hparse
  refine ⟨_, hargs, ?_, ?_, withAutoOptions_items cfg cfgname⟩
  · intro hne
    obtain ⟨argmap, ha, hc⟩ := readArgs_cfgpath cl argv cfg cfgname args boolargs f parsed
      hne hreg hparse
    rw [hargs] at ha
    cases ha
    have hpath : effectivePath
        (derefLoop parsed.strVal
          (ptrLoop true (withAutoOptions cfg cfgname).Items GoMap.empty)
          (derefLoop (fun v => if parsed.boolVal v = true then "yes".toList else [])
            (ptrLoop false (withAutoOptions cfg cfgname).Items GoMap.empty)
            GoMap.empty)) cfgname
        = (if parsed.strVal "c".toList ≠ [] then parsed.strVal "c".toList
           else cfgname) := by
      unfold effectivePath
      rw [hc]
      by_cases hv : parsed.strVal "c".toList = []
      · rw [hv]
        simp
      · have hpos : (parsed.strVal "c".toList).length > 0 := List.length_pos.2 hv
        rw [if_pos hpos, if_pos hv]
    constructor
    · rw [Read_of_args tbl fs cl argv cfg cfgname _ hargs, if_neg hne, hpath]
    · intro fs' hsame
      exact Read_same_file tbl fs fs' cl argv cfg cfgname _ hargs (by rw [hpath]; exact hsame)
  · intro hempty
    rw [Read_of_args tbl fs cl argv cfg cfgname _ hargs, if_pos hempty]

/-- Scenario of C12: with the file name `app.conf` and the command line
`-c other.conf`, the file `other.conf` is the one that is parsed. -/
theorem Read_effective_path_witness :
    (∃ argmap, (withAutoOptions portSchema "app.conf".toList).readArgs []
          ["-c".toList, "other.conf".toList] = some argmap
      ∧ ("app.conf".toList ≠ [] →
          (Config.Read id twoFiles [] ["-c".toList, "other.conf".toList] portSchema
              "app.conf".toList).2
              = (match readConfigFile id twoFiles
                    (if portFlagsOther.strVal "c".toList ≠ [] then
                      portFlagsOther.strVal "c".toList
                     else "app.conf".toList) with
                 | none => none
                 | some (_, some err) => some (none, some err)
                 | some (confmap, none) =>
                   some (some ((withAutoOptions portSchema "app.conf".toList).mergeItems
                     argmap confmap), none))
            ∧ ∀ fs' : FileSystem,
                fs' (if portFlagsOther.strVal "c".toList ≠ [] then
                      portFlagsOther.strVal "c".toList
                     else "app.conf".toList)
                  = twoFiles (if portFlagsOther.strVal "c".toList ≠ [] then
                      portFlagsOther.strVal "c".toList
                     else "app.conf".toList) →
                Config.Read id fs' [] ["-c".toList, "other.conf".toList] portSchema
                    "app.conf".toList
                  = Config.Read id twoFiles [] ["-c".toList, "other.conf".toList] portSchema
                    "app.conf".toList)
      ∧ ("app.conf".toList = [] →
          (Config.Read id twoFiles [] ["-c".toList, "other.conf".toList] portSchema
              "app.conf".toList).2
            = some (some ((withAutoOptions portSchema "app.conf".toList).mergeItems argmap
                GoMap.empty), none))
      ∧ (withAutoOptions portSchema "app.conf".toList).Items
          = portSchema.Items ++ helpItem
              :: (if "app.conf".toList = [] then [] else [cfgpathItem "app.conf".toList]))
    ∧ (Config.Read id twoFiles [] ["-c".toList, "other.conf".toList] portSchema
          "app.conf".toList).2
        = some (some [("port".toList, "9090".toList), ("help".toList, "no".toList),
            ("cfgpath".toList, "other.conf".toList)], none) :=
  ⟨Read_effective_path id twoFiles [] ["-c".toList, "other.conf".toList] portSchema
      "app.conf".toList [("port".toList, "p".toList), ("cfgpath".toList, "c".toList)]
      [("help".toList, "h".toList)] portFlags portFlagsOther rfl rfl,
    by decide⟩

theorem effectivePath_of_get (argmap : GoMap) (cfgname v : Str)
    (hc : argmap.get "cfgpath".toList = v) :
    effectivePath argmap cfgname = if v ≠ [] then v else cfgname := by
  unfold effectivePath
  rw [hc]
  by_cases hv : v = []
  · rw [hv]
    simp
  · have hpos : v.length > 0 := List.length_pos.2 hv
    rw [if_pos hpos, if_pos hv]

theorem Read_success (tbl : Char → Char) (fs : FileSystem) (cl : FlagSet) (argv : List Str)
    (cfg : Config) (cfgname : Str) (argmap m : GoMap) (err : Option Str)
    (hargs : (withAutoOptions cfg cfgname).readArgs cl argv = some argmap)
    (hres : (cfg.Read tbl fs cl argv cfgname).2 = some (some m, err)) :
    err = none ∧ ∃ confmap, m = (withAutoOptions cfg cfgname).mergeItems argmap confmap
      ∧ (cfgname ≠ [] →
          readConfigFile tbl fs (effectivePath argmap cfgname) = some (confmap, none)) := by
  rw [Read_of_args tbl fs cl argv cfg cfgname argmap hargs] at hres
  by_cases hne : cfgname = []
  · simp only [hne, if_true, Option.some.injEq, Prod.mk.injEq] at hres
    exact ⟨hres.2.symm, GoMap.empty, by rw [hne]; exact hres.1.symm, fun h => absurd hne h⟩
  · simp only [hne, if_false] at hres
    cases hr : readConfigFile tbl fs (effectivePath argmap cfgname) with
    | none => simp [hr] at hres
    | some p =>
      obtain ⟨c, e⟩ := p
      cases e with
      | some e' => simp [hr] at hres
      | none =>
        simp only [hr, Option.some.injEq, Prod.mk.injEq] at hres
        exact ⟨hres.2.symm, c, hres.1.symm, fun _ => rfl⟩

/-- C20 (resolved `cfgpath` and the file read): for a successful `Read` with a
non-empty file name, when the flag `c` holds a non-empty value, that value is the
resolved `cfgpath` and the path that was read. When the flag `c` holds the empty
string, the path read is the file name, and the resolved `cfgpath` is the value
that the file itself gives to `cfgpath` when that is not empty, and the file name
otherwise; no path but the file name matters for the result. -/
theorem Read_cfgpath_resolved (tbl : Char → Char) (fs : FileSystem) (cl : FlagSet)
    (argv : List Str) (cfg : Config) (cfgname : Str) (args boolargs : GoMap)
    (f parsed : FlagSet) (m : GoMap) (hne : cfgname ≠ [])
    (hreg : registerLoop (withAutoOptions cfg cfgname).Items GoMap.empty GoMap.empty cl
      = some (args, boolargs, f))
    (hparse : flagParse f argv = some parsed)
    (hres : (cfg.Read tbl fs cl argv cfgname).2 = some (some m, none)) :
    (parsed.strVal "c".toList ≠ [] →
        m.get "cfgpath".toList = parsed.strVal "c".toList
          ∧ ∃ argmap confmap, (withAutoOptions cfg cfgname).readArgs cl argv = some argmap
              ∧ readConfigFile tbl fs (parsed.strVal "c".toList) = some (confmap, none)
              ∧ m = (withAutoOptions cfg cfgname).mergeItems argmap confmap)
      ∧ (parsed.strVal "c".toList = [] →
          ∃ argmap confmap, (withAutoOptions cfg cfgname).readArgs cl argv = some argmap
            ∧ readConfigFile tbl fs cfgname = some (confmap, none)
            ∧ m = (withAutoOptions cfg cfgname).mergeItems argmap confmap
            ∧ m.get "cfgpath".toList
                = (if confmap.get "cfgpath".toList ≠ [] then confmap.get "cfgpath".toList
                   else cfgname)
            ∧ ∀ fs' : FileSystem, fs' cfgname = fs cfgname →
                cfg.Read tbl fs' cl argv cfgname = cfg.Read tbl fs cl argv cfgname) := by
  obtain ⟨argmap, hargs, hc⟩ := readArgs_cfgpath cl argv cfg cfgname args boolargs f parsed
    hne hreg hparse
  obtain ⟨_, confmap, hm, hfile⟩ := Read_success tbl fs cl argv cfg cfgname argmap m none
    hargs hres
  have hpath := effectivePath_of_get argmap cfgname _ hc
  have hfile' := hfile hne
  have hget := mergeItems_cfgpath cfg cfgname argmap confmap hne
  rw [← hm, hc] at hget
  constructor
  · intro hv
    rw [hpath, if_pos hv] at hfile'
    refine ⟨?_, argmap, confmap, hargs, hfile', hm⟩
    rw [hget, merge_arg _ _ _ hv]
  · intro hv
    have hpath' : effectivePath argmap cfgname = cfgname := by
      rw [hpath, hv]
      simp
    rw [hpath'] at hfile'
    refine ⟨argmap, confmap, hargs, hfile', hm, ?_, ?_⟩
    · rw [hget, hv]
      by_cases hconf : confmap.get "cfgpath".toList = []
      · rw [hconf, merge_dflt]
        simp
      · rw [merge_conf _ _ hconf, if_pos hconf]
    · intro fs' hsame
      exact Read_same_file tbl fs fs' cl argv cfg cfgname argmap hargs
        (by rw [hpath']; exact hsame)

/-- Scenario of C20: without `-c` the file `app.conf` is read; it sets `cfgpath`
to `elsewhere.conf`, which becomes the resolved `cfgpath` although that file is
never opened. With `-c other.conf` the resolved `cfgpath` is `other.conf`. -/
theorem Read_cfgpath_resolved_witness :
    ((portFlags.strVal "c".toList ≠ [] →
        GoMap.get [("port".toList, "1111".toList), ("help".toList, "no".toList),
            ("cfgpath".toList, "elsewhere.conf".toList)] "cfgpath".toList
          = portFlags.strVal "c".toList
          ∧ ∃ argmap confmap,
              (withAutoOptions portSchema "app.conf".toList).readArgs [] [] = some argmap
              ∧ readConfigFile id twoFiles (portFlags.strVal "c".toList)
                  = some (confmap, none)
              ∧ [("port".toList, "1111".toList), ("help".toList, "no".toList),
                  ("cfgpath".toList, "elsewhere.conf".toList)]
                = (withAutoOptions portSchema "app.conf".toList).mergeItems argmap confmap)
      ∧ (portFlags.strVal "c".toList = [] →
          ∃ argmap confmap,
            (withAutoOptions portSchema "app.conf".toList).readArgs [] [] = some argmap
            ∧ readConfigFile id twoFiles "app.conf".toList = some (confmap, none)
            ∧ [("port".toList, "1111".toList), ("help".toList, "no".toList),
                ("cfgpath".toList, "elsewhere.conf".toList)]
              = (withAutoOptions portSchema "app.conf".toList).mergeItems argmap confmap
            ∧ GoMap.get [("port".toList, "1111".toList), ("help".toList, "no".toList),
                  ("cfgpath".toList, "elsewhere.conf".toList)] "cfgpath".toList
                = (if confmap.get "cfgpath".toList ≠ [] then confmap.get "cfgpath".toList
                   else "app.conf".toList)
            ∧ ∀ fs' : FileSystem, fs' "app.conf".toList = twoFiles "app.conf".toList →
                Config.Read id fs' [] [] portSchema "app.conf".toList
                  = Config.Read id twoFiles [] [] portSchema "app.conf".toList))
    ∧ (Config.Read id twoFiles [] [] portSchema "app.conf".toList).2
        = some (some [("port".toList, "1111".toList), ("help".toList, "no".toList),
            ("cfgpath".toList, "elsewhere.conf".toList)], none)
    ∧ twoFiles "elsewhere.conf".toList = none
    ∧ (Config.Read id twoFiles [] ["-c".toList, "other.conf".toList] portSchema
          "app.conf".toList).2
        = some (some [("port".toList, "9090".toList), ("help".toList, "no".toList),
            ("cfgpath".toList, "other.conf".toList)], none) :=
  ⟨Read_cfgpath_resolved id twoFiles [] [] portSchema "app.conf".toList
      [("port".toList, "p".toList), ("cfgpath".toList, "c".toList)]
      [("help".toList, "h".toList)] portFlags portFlags
      [("port".toList, "1111".toList), ("help".toList, "no".toList),
        ("cfgpath".toList, "elsewhere.conf".toList)]
      (by decide) rfl rfl (by decide),
    by decide, by decide, by decide⟩

/-! ## Defaults that cannot be cleared -/

theorem merge_eq_nil_iff (arg conf dflt : Str) :
    merge arg conf dflt = [] ↔ arg = [] ∧ conf = [] ∧ dflt = [] := by
  unfold merge
  by_cases ha : arg = []
  · by_cases hc : conf = []
    · simp [ha, hc]
    · simp [ha, hc]
  · have hl : ¬ arg.length = 0 := fun e => ha (List.length_eq_zero.1 e)
    simp [ha, hl]

/-- C18, as stated, fails: in a schema where an option `mode` with default `yes`
is followed by a second option `mode` with an empty default, the resolved value
of `mode` is the empty string, for the merge resolver and for `Read` with an
empty command line and no file. -/
theorem merge_default_counterexample :
    ¬ (∀ (cfg : Config) (args conf : GoMap) (d : ConfigItem),
        d ∈ cfg.Items → d.Dflt ≠ [] → (cfg.mergeItems args conf).get d.Name ≠ [])
      ∧ (Config.Read id noFiles [] [] shadowSchema []).2
          = some (some [("mode".toList, []), ("help".toList, "no".toList)], none) := by
  constructor
  · intro h
    exact h shadowSchema GoMap.empty GoMap.empty
      { Name := "mode".toList, Arg := "a".toList, Hasval := false,
        Descr := "First declaration".toList, Dflt := "yes".toList }
      (by decide) (by decide) (by decide)
  · decide

/-- C18, amended: `merge` returns the empty string exactly when the command-line
value, the file value and the default are all empty. Hence a descriptor with a
non-empty default that is the last of its name in the schema (any descriptor,
when the names are pairwise distinct) has a non-empty resolved value for every
arguments mapping and every file mapping, and so has the option `help` in every
mapping that `Read` returns. -/
theorem merge_nonempty_default (arg conf dflt : Str) :
    (merge arg conf dflt = [] ↔ arg = [] ∧ conf = [] ∧ dflt = [])
      ∧ (∀ (args confmap : GoMap) (pre post : List ConfigItem) (d : ConfigItem),
          (∀ x ∈ post, x.Name ≠ d.Name) → d.Dflt ≠ [] →
          (Config.mergeItems { Items := pre ++ d :: post } args confmap).get d.Name ≠ [])
      ∧ (∀ (cfg : Config) (args confmap : GoMap) (d : ConfigItem),
          (cfg.Items.map ConfigItem.Name).Nodup → d ∈ cfg.Items → d.Dflt ≠ [] →
          (cfg.mergeItems args confmap).get d.Name ≠ [])
      ∧ (∀ (tbl : Char → Char) (fs : FileSystem) (cl : FlagSet) (argv : List Str)
          (cfg : Config) (cfgname : Str) (m : GoMap) (err : Option Str),
          (cfg.Read tbl fs cl argv cfgname).2 = some (some m, err) →
          m.get "help".toList ≠ []) := by
  refine ⟨merge_eq_nil_iff arg conf dflt, ?_, ?_, ?_⟩
  · intro args confmap pre post d hlast hd hnil
    rw [Config.mergeItems, mergeLoop_get_last args confmap pre post d GoMap.empty hlast,
      merge_eq_nil_iff] at hnil
    exact hd hnil.2.2
  · intro cfg args confmap d hnames hmem hd hnil
    obtain ⟨d', hd', hn, h⟩ := mergeItems_get_of_mem cfg args confmap d hmem
    have heq : d' = d := List.inj_on_of_nodup_map hnames hd' hmem hn
    rw [h, merge_eq_nil_iff, heq] at hnil
    exact hd hnil.2.2
  · intro tbl fs cl argv cfg cfgname m err hres hnil
    cases hargs : (withAutoOptions cfg cfgname).readArgs cl argv with
    | none =>
      rw [Read_of_no_args tbl fs cl argv cfg cfgname hargs] at hres
      cases hres
    | some argmap =>
      obtain ⟨_, confmap, hm, _⟩ := Read_success tbl fs cl argv cfg cfgname argmap m err
        hargs hres
      rw [hm, mergeItems_help, merge_eq_nil_iff] at hnil
      exact absurd hnil.2.2 (by decide)

/-! ## Keys of the file mapping -/

theorem ofNat_lower_facts (n : Nat) (h1 : 65 ≤ n) (h2 : n ≤ 90) :
    isUpperASCII (Char.ofNat (n + 32)) = false ∧ isSpace (Char.ofNat (n + 32)) = false := by
  interval_cases n <;> decide

theorem lowerRune_facts (tbl : Char → Char)
    (htbl : ∀ c : Char, 0x80 ≤ c.toNat →
      isUpperASCII (tbl c) = false ∧ (isSpace c = false → isSpace (tbl c) = false))
    (c : Char) :
    isUpperASCII (lowerRune tbl c) = false
      ∧ (isSpace c = false → isSpace (lowerRune tbl c) = false) := by
  unfold lowerRune
  have hA : 'A'.toNat = 65 := rfl
  have hZ : 'Z'.toNat = 90 := rfl
  by_cases hascii : c.toNat < 0x80
  · rw [if_pos hascii]
    by_cases hup : 'A'.toNat ≤ c.toNat ∧ c.toNat ≤ 'Z'.toNat
    · rw [if_pos hup]
      have := ofNat_lower_facts c.toNat (by omega) (by omega)
      exact ⟨this.1, fun _ => this.2⟩
    · rw [if_neg hup]
      exact ⟨by simp only [isUpperASCII]; exact decide_eq_false hup, fun h => h⟩
  · rw [if_neg hascii]
    exact htbl c (by omega)

theorem dropWhile_getLast? (p : Char → Bool) (l : Str) (c : Char)
    (h : (l.dropWhile p).getLast? = some c) : l.getLast? = some c := by
  induction l with
  | nil => simp at h
  | cons a rest ih =>
    by_cases ha : p a = true
    · rw [List.dropWhile_cons_of_pos ha] at h
      have hr := ih h
      cases rest with
      | nil => simp at hr
      | cons b rest' => rw [List.getLast?_cons_cons]; exact hr
    · rw [List.dropWhile_cons_of_neg ha] at h
      exact h

theorem dropWhile_head? (p : Char → Bool) (l : Str) (c : Char)
    (h : (l.dropWhile p).head? = some c) : p c = false := by
  have := List.head?_dropWhile_not p l
  rw [h] at this
  exact this

theorem TrimSpace_ends (s : Str) (c : Char) :
    ((TrimSpace s).head? = some c → isSpace c = false)
      ∧ ((TrimSpace s).getLast? = some c → isSpace c = false) := by
  unfold TrimSpace
  constructor
  · intro h
    rw [List.head?_reverse] at h
    have h2 := dropWhile_getLast? isSpace _ c h
    rw [List.getLast?_reverse] at h2
    exact dropWhile_head? isSpace s c h2
  · intro h
    rw [List.getLast?_reverse] at h
    exact dropWhile_head? isSpace _ c h

theorem dropWhile_of_head (p : Char → Bool) (l : Str)
    (h : ∀ c, l.head? = some c → p c = false) : l.dropWhile p = l := by
  cases l with
  | nil => rfl
  | cons a rest =>
    have ha : ¬ p a = true := by
      rw [h a rfl]
      simp
    rw [List.dropWhile_cons_of_neg ha]

theorem TrimSpace_of_ends (k : Str) (hhead : ∀ c, k.head? = some c → isSpace c = false)
    (hlast : ∀ c, k.getLast? = some c → isSpace c = false) : TrimSpace k = k := by
  unfold TrimSpace
  rw [dropWhile_of_head isSpace k hhead,
    dropWhile_of_head isSpace k.reverse (by rw [List.head?_reverse]; exact hlast),
    List.reverse_reverse]

theorem key_facts (tbl : Char → Char)
    (htbl : ∀ c : Char, 0x80 ≤ c.toNat →
      isUpperASCII (tbl c) = false ∧ (isSpace c = false → isSpace (tbl c) = false))
    (s : Str) :
    (∀ c ∈ ToLower tbl (TrimSpace s), isUpperASCII c = false)
      ∧ TrimSpace (ToLower tbl (TrimSpace s)) = ToLower tbl (TrimSpace s) := by
  constructor
  · intro c hc
    unfold ToLower at hc
    obtain ⟨c0, _, hc0⟩ := List.mem_map.1 hc
    rw [← hc0]
    exact (lowerRune_facts tbl htbl c0).1
  · apply TrimSpace_of_ends
    · intro c hc
      unfold ToLower at hc
      rw [List.head?_map] at hc
      cases hh : (TrimSpace s).head? with
      | none => simp [hh] at hc
      | some c0 =>
        simp only [hh, Option.map_some', Option.some.injEq] at hc
        rw [← hc]
        exact (lowerRune_facts tbl htbl c0).2 ((TrimSpace_ends s c0).1 hh)
    · intro c hc
      unfold ToLower at hc
      rw [List.getLast?_map] at hc
      cases hh : (TrimSpace s).getLast? with
      | none => simp [hh] at hc
      | some c0 =>
        simp only [hh, Option.map_some', Option.some.injEq] at hc
        rw [← hc]
        exact (lowerRune_facts tbl htbl c0).2 ((TrimSpace_ends s c0).2 hh)

theorem GoMap.mem_of_has (m : GoMap) (k : Str) (h : m.has k = true) : ∃ v, (k, v) ∈ m := by
  rw [GoMap.has_iff_mem_keys] at h
  obtain ⟨e, he, hk⟩ := List.mem_map.1 h
  exact ⟨e.2, by rw [← hk]; exact he⟩

theorem readConfigFile_key (tbl : Char → Char) (fs : FileSystem) (filename : Str)
    (m : GoMap) (err : Option Str) (k : Str)
    (h : readConfigFile tbl fs filename = some (m, err)) (hk : m.has k = true) :
    ∃ before : Str, k = ToLower tbl (TrimSpace before) := by
  obtain ⟨v, hv⟩ := GoMap.mem_of_has m k hk
  rcases readConfigFile_some tbl fs filename m err h with ⟨_, hm, _⟩ | ⟨file, _, _, _, hm, _⟩
  · rw [hm] at hv
    cases hv
  · rw [hm] at hv
    rcases foldl_lineStep_mem tbl _ _ _ hv with h1 | ⟨raw, _, he⟩
    · cases h1
    · obtain ⟨_, before, _, _, _, hkey, _⟩ := lineEntry_some tbl _ _ he
      exact ⟨before, hkey⟩

/-- C19 (file values never reach a name with a capital letter): given that the
Unicode case tables, which stand behind `tbl`, never give an ASCII capital and
never turn a character that is not white space into white space, every key of the
mapping returned by the file reader has no letter `A` to `Z` and no white space
at either end. So for a descriptor whose name has a letter `A` to `Z` the resolved
value is the same for any two files: the command-line value when that is not
empty, else the default of the last descriptor with that name, which is the
descriptor itself when the names are pairwise distinct. -/
theorem file_never_reaches_capital (tbl : Char → Char)
    (htbl : ∀ c : Char, 0x80 ≤ c.toNat →
      isUpperASCII (tbl c) = false ∧ (isSpace c = false → isSpace (tbl c) = false))
    (fs1 fs2 : FileSystem) (file1 file2 : Str) (m1 m2 : GoMap) (e1 e2 : Option Str)
    (h1 : readConfigFile tbl fs1 file1 = some (m1, e1))
    (h2 : readConfigFile tbl fs2 file2 = some (m2, e2))
    (cfg : Config) (args : GoMap) (d : ConfigItem) (hd : d ∈ cfg.Items)
    (hcap : ∃ c ∈ d.Name, isUpperASCII c = true) :
    (∀ k, m1.has k = true → (∀ c ∈ k, isUpperASCII c = false) ∧ TrimSpace k = k)
      ∧ (cfg.mergeItems args m1).get d.Name = (cfg.mergeItems args m2).get d.Name
      ∧ (∃ d' ∈ cfg.Items, d'.Name = d.Name
          ∧ (cfg.mergeItems args m1).get d.Name
              = (if args.get d.Name ≠ [] then args.get d.Name else d'.Dflt))
      ∧ ((cfg.Items.map ConfigItem.Name).Nodup →
          (cfg.mergeItems args m1).get d.Name
            = (if args.get d.Name ≠ [] then args.get d.Name else d.Dflt)) := by
  have hkeys : ∀ (fs : FileSystem) (file : Str) (m : GoMap) (e : Option Str),
      readConfigFile tbl fs file = some (m, e) →
      ∀ k, m.has k = true → (∀ c ∈ k, isUpperASCII c = false) ∧ TrimSpace k = k := by
    intro fs file m e h k hk
    obtain ⟨before, hb⟩ := readConfigFile_key tbl fs file m e k h hk
    rw [hb]
    exact key_facts tbl htbl before
  have habsent : ∀ (fs : FileSystem) (file : Str) (m : GoMap) (e : Option Str),
      readConfigFile tbl fs file = some (m, e) → m.get d.Name = [] := by
    intro fs file m e h
    apply GoMap.get_of_has_false
    cases hh : m.has d.Name with
    | false => rfl
    | true =>
      obtain ⟨c, hc, hup⟩ := hcap
      rw [(hkeys fs file m e h d.Name hh).1 c hc] at hup
      cases hup
  have hval : ∀ (m : GoMap), m.get d.Name = [] → ∀ d' : ConfigItem,
      merge (args.get d.Name) (m.get d.Name) d'.Dflt
        = (if args.get d.Name ≠ [] then args.get d.Name else d'.Dflt) := by
    intro m hm d'
    rw [hm]
    by_cases ha : args.get d.Name = []
    · rw [ha, merge_dflt]
      simp
    · rw [merge_arg _ _ _ ha, if_pos ha]
  obtain ⟨da, hda, hna, ha⟩ := mergeItems_get_of_mem cfg args m1 d hd
  obtain ⟨pre, dl, post, he, hn, hp⟩ := exists_last_named cfg.Items d.Name ⟨d, hd, rfl⟩
  have hlast : ∀ m : GoMap, (cfg.mergeItems args m).get d.Name
      = merge (args.get d.Name) (m.get d.Name) dl.Dflt := by
    intro m
    have h := mergeLoop_get_last args m pre post dl GoMap.empty (by rw [hn]; exact hp)
    rw [hn, ← he] at h
    exact h
  have hm1 := habsent fs1 file1 m1 e1 h1
  have hm2 := habsent fs2 file2 m2 e2 h2
  refine ⟨hkeys fs1 file1 m1 e1 h1, ?_, ⟨dl, by rw [he]; simp, hn, ?_⟩, ?_⟩
  · rw [hlast m1, hlast m2, hm1, hm2]
  · rw [hlast m1, hval m1 hm1 dl]
  · intro hnames
    have heq : dl = d :=
      List.inj_on_of_nodup_map hnames (by rw [he]; simp) hd hn
    rw [hlast m1, hval m1 hm1 dl, heq]

theorem id_table_facts (c : Char) (h : 0x80 ≤ c.toNat) :
    isUpperASCII (id c) = false ∧ (isSpace c = false → isSpace (id c) = false) := by
  refine ⟨?_, fun hs => hs⟩
  have hZ : 'Z'.toNat = 90 := rfl
  simp only [isUpperASCII, id]
  apply decide_eq_false
  rintro ⟨_, h2⟩
  omega

/-- Scenario of C19: the files `Port = 1111` and `PORT = 2222` followed by
`port = 3` both store the key `port`, so the option named `Port` keeps its
default `8080` with either file. -/
theorem file_never_reaches_capital_witness :
    ((∀ k, GoMap.has [("port".toList, "1111".toList)] k = true →
        (∀ c ∈ k, isUpperASCII c = false) ∧ TrimSpace k = k)
      ∧ (Config.mergeItems { Items := [capitalItem] } GoMap.empty
            [("port".toList, "1111".toList)]).get capitalItem.Name
          = (Config.mergeItems { Items := [capitalItem] } GoMap.empty
            [("port".toList, "3".toList)]).get capitalItem.Name
      ∧ (∃ d' ∈ [capitalItem], d'.Name = capitalItem.Name
          ∧ (Config.mergeItems { Items := [capitalItem] } GoMap.empty
                [("port".toList, "1111".toList)]).get capitalItem.Name
              = (if GoMap.get GoMap.empty capitalItem.Name ≠ [] then
                  GoMap.get GoMap.empty capitalItem.Name
                 else d'.Dflt))
      ∧ (([capitalItem].map ConfigItem.Name).Nodup →
          (Config.mergeItems { Items := [capitalItem] } GoMap.empty
              [("port".toList, "1111".toList)]).get capitalItem.Name
            = (if GoMap.get GoMap.empty capitalItem.Name ≠ [] then
                GoMap.get GoMap.empty capitalItem.Name
               else capitalItem.Dflt)))
    ∧ readConfigFile id (oneFile "Port = 1111") "app.conf".toList
        = some ([("port".toList, "1111".toList)], none)
    ∧ readConfigFile id (oneFile "PORT = 2222\nport = 3") "app.conf".toList
        = some ([("port".toList, "3".toList)], none)
    ∧ (Config.mergeItems { Items := [capitalItem] } GoMap.empty
          [("port".toList, "1111".toList)]).get "Port".toList = "8080".toList :=
  ⟨file_never_reaches_capital id id_table_facts (oneFile "Port = 1111")
      (oneFile "PORT = 2222\nport = 3") "app.conf".toList "app.conf".toList
      [("port".toList, "1111".toList)] [("port".toList, "3".toList)] none none
      (by decide) (by decide) { Items := [capitalItem] } GoMap.empty capitalItem
      (by decide) ⟨'P', by decide, by decide⟩,
    by decide, by decide, by decide⟩

end GoConfig
